import Mathlib

/-!
Verification development for the `pubsub` topic-based publish/subscribe engine
(`src/index.js`).  The engine is shallowly embedded: JavaScript `Map`s and
`Set`s become insertion-ordered association lists and duplicate-free lists,
closures become explicit environments, and operations that can throw a
`TypeError` return `Option`.  Topics and subscription keys are lists of
characters; payloads, callback identities and scope identities are opaque and
modelled by natural numbers.
-/

namespace PubSub

/-! ### Topic matcher: escaping and the pattern fragment it produces

`escapeRegexpCharacters` (src/index.js line 18) replaces every character of
the class `[-\\/\\^$+?.()|[\]{}\\*]` by a backslash-escaped copy.  A string
subscription stores the pattern `^<escaped>$` (line 22), matched with JS
`String.prototype.match`.  We give an executable semantics to the fragment of
JS regular expressions that these anchored patterns live in: sequences of
atoms (a literal character, an escaped character, or `.`), each optionally
followed by `*`.  Unescaped occurrences of the remaining metacharacters are
outside the fragment and make the parser fail.  `-` and `/` carry no special
meaning outside a character class, so they parse as literals.
-/

/-- The characters matched by the class `[-\\/\\^$+?.()|[\]{}\\*]` in
`escapeRegexpCharacters` (src/index.js line 18). -/
def regexpMetaChars : List Char :=
  ['-', '\\', '/', '^', '$', '+', '?', '.', '(', ')', '|', '[', ']', '{', '}', '*']

/-- `escapeRegexpCharacters`: replace every metacharacter by `\\` followed by
the character (`'\\$&'`), leaving other characters alone. -/
def escapeRegexpCharacters (s : List Char) : List Char :=
  s.flatMap fun c => if c ∈ regexpMetaChars then ['\\', c] else [c]

/-- An atom of the modelled regular-expression fragment. -/
inductive RAtom where
  | chr (c : Char)
  | dot
deriving DecidableEq, Repr

/-- One quantified atom: the atom, and whether it carries a `*` quantifier. -/
structure RItem where
  atom : RAtom
  star : Bool
deriving DecidableEq, Repr

/-- Whether a single atom matches a single character. -/
def atomMatches : RAtom → Char → Bool
  | .chr c, d => c = d
  | .dot, _ => true

/-- The metacharacters that are literal when they appear unescaped outside a
character class (`-` and `/`). -/
def literalMetaChars : List Char := ['-', '/']

/-- The unquantified atom denoted by an unescaped character of the
fragment. -/
def plainAtom (c : Char) : RAtom :=
  if c = '.' then .dot else .chr c

/-- Whether an unescaped character is outside the modelled fragment (a
metacharacter other than `.`, `-` and `/`). -/
def unsupportedMeta (c : Char) : Bool :=
  c ∈ regexpMetaChars && c ∉ literalMetaChars && c ≠ '.'

/-- Parse a pattern body into quantified atoms.  `\c` is the literal `c`,
`.` matches any character, a trailing `*` quantifies the preceding atom.
Unescaped metacharacters outside the fragment yield `none`. -/
def parseRegex : List Char → Option (List RItem)
  | [] => some []
  | ['\\'] => none
  | '\\' :: c :: '*' :: rest => (parseRegex rest).map (⟨.chr c, true⟩ :: ·)
  | '\\' :: c :: rest => (parseRegex rest).map (⟨.chr c, false⟩ :: ·)
  | c :: '*' :: rest =>
    if unsupportedMeta c then none
    else (parseRegex rest).map (⟨plainAtom c, true⟩ :: ·)
  | c :: rest =>
    if unsupportedMeta c then none
    else (parseRegex rest).map (⟨plainAtom c, false⟩ :: ·)

/-- All suffixes of `t` reachable by consuming characters matching `a`
(used for the `*` quantifier). -/
def starTails (a : RAtom) : List Char → List (List Char)
  | [] => [[]]
  | c :: t' => (c :: t') :: (if atomMatches a c then starTails a t' else [])

/-- Match a sequence of quantified atoms against the whole of `t`. -/
def matchRegex : List RItem → List Char → Bool
  | [], t => t.isEmpty
  | it :: rest, t =>
    if it.star then
      (starTails it.atom t).any fun t' => matchRegex rest t'
    else
      match t with
      | [] => false
      | c :: t' => atomMatches it.atom c && matchRegex rest t'

/-- Semantics of `topic.match(new RegExp('^' ++ body ++ '$'))`: the anchors
force a full-string match of the body against the topic. -/
def anchoredRegexMatches (body : List Char) (t : List Char) : Bool :=
  match parseRegex body with
  | some items => matchRegex items t
  | none => false

/-- The escaped form of a string never starts with an unescaped `*`. -/
theorem escape_head_ne_star (s r : List Char) :
    escapeRegexpCharacters s ≠ '*' :: r := by
  cases s with
  | nil => simp [escapeRegexpCharacters]
  | cons c cs =>
    by_cases h : c ∈ regexpMetaChars
    · simp [escapeRegexpCharacters, h]
    · have hc : c ≠ '*' := by
        intro he
        exact h (he ▸ (by decide : ('*' : Char) ∈ regexpMetaChars))
      simp [escapeRegexpCharacters, h, hc]

/-- Parsing an escaped atom `\c` whose continuation does not start with `*`. -/
theorem parseRegex_cons_escaped (c : Char) (E : List Char)
    (hE : ∀ r, E ≠ '*' :: r) :
    parseRegex ('\\' :: c :: E) = (parseRegex E).map (⟨.chr c, false⟩ :: ·) := by
  cases E with
  | nil => simp [parseRegex]
  | cons e es =>
    have he : e ≠ '*' := fun h => hE es (by rw [h])
    simp [parseRegex, he]

/-- Parsing an unescaped non-metacharacter whose continuation does not start
with `*`. -/
theorem parseRegex_cons_lit (c : Char) (E : List Char)
    (hc : c ∉ regexpMetaChars) (hE : ∀ r, E ≠ '*' :: r) :
    parseRegex (c :: E) = (parseRegex E).map (⟨.chr c, false⟩ :: ·) := by
  have hb : c ≠ '\\' := by
    intro he
    exact hc (he ▸ (by decide : ('\\' : Char) ∈ regexpMetaChars))
  have hd : c ≠ '.' := by
    intro he
    exact hc (he ▸ (by decide : ('.' : Char) ∈ regexpMetaChars))
  have hu : unsupportedMeta c = false := by simp [unsupportedMeta, hc]
  have hp : plainAtom c = .chr c := by simp [plainAtom, hd]
  cases E with
  | nil => simp [parseRegex, hb, hu, hp]
  | cons e es =>
    have he : e ≠ '*' := fun h => hE es (by rw [h])
    simp [parseRegex, hb, he, hu, hp]

/-- The escaped form of `s` parses as the sequence of unquantified literal
atoms spelling `s`. -/
theorem parseRegex_escape (s : List Char) :
    parseRegex (escapeRegexpCharacters s)
      = some (s.map fun c => ⟨.chr c, false⟩) := by
  induction s with
  | nil => rfl
  | cons c cs ih =>
    by_cases h : c ∈ regexpMetaChars
    · have he : escapeRegexpCharacters (c :: cs)
          = '\\' :: c :: escapeRegexpCharacters cs := by
        simp [escapeRegexpCharacters, h]
      rw [he, parseRegex_cons_escaped c _ (fun r => escape_head_ne_star cs r), ih]
      rfl
    · have he : escapeRegexpCharacters (c :: cs)
          = c :: escapeRegexpCharacters cs := by
        simp [escapeRegexpCharacters, h]
      rw [he, parseRegex_cons_lit c _ h (fun r => escape_head_ne_star cs r), ih]
      rfl

/-- A sequence of unquantified literal atoms matches exactly one topic: the
string it spells. -/
theorem matchRegex_lits (s t : List Char) :
    matchRegex (s.map fun c => ⟨.chr c, false⟩) t = true ↔ t = s := by
  induction s generalizing t with
  | nil => cases t <;> simp [matchRegex]
  | cons c cs ih =>
    cases t with
    | nil => simp [matchRegex]
    | cons d ds =>
      by_cases hcd : d = c
      · subst hcd
        simp [matchRegex, atomMatches, ih]
      · simp [matchRegex, atomMatches, ih, hcd, Ne.symm hcd]

/-- The anchored pattern built from an escaped literal matches exactly that
literal: escaping makes every metacharacter inert. -/
theorem anchoredRegexMatches_escape (s t : List Char) :
    anchoredRegexMatches (escapeRegexpCharacters s) t = true ↔ t = s := by
  rw [anchoredRegexMatches, parseRegex_escape]
  exact matchRegex_lits s t

example : anchoredRegexMatches (escapeRegexpCharacters "^part1.*".toList)
    "^part1.*".toList = true := by decide

example : anchoredRegexMatches (escapeRegexpCharacters "^part1.*".toList)
    "part1.anything".toList = false := by decide

example : anchoredRegexMatches "part1.*".toList "part1xanything".toList = true := by
  decide

example : anchoredRegexMatches "part1.*".toList "part2".toList = false := by decide

/-! ### Values, callbacks and tokens -/

/-- A JavaScript function value that can reach the engine: an external
callback (opaque identity), the wrapper created by `subscribeOnce` (closing
over the to-be-returned token and the original callback), or a subscription
token — tokens are themselves functions (src/index.js lines 176-197). -/
inductive Fn where
  | ext (id : Nat)
  | wrapper (tok : Nat) (inner : Fn)
  | token (t : Nat)
deriving DecidableEq, Repr

/-- A JavaScript value passed as a topic specifier or callback argument:
a string, a RegExp object (opaque identity), a function, or any other value
(represented by `undef`, the one used in practice). -/
inductive JSVal where
  | str (s : List Char)
  | regexp (r : Nat)
  | fn (f : Fn)
  | undef
deriving DecidableEq, Repr

/-- `isString` (line 1). -/
def isString : JSVal → Bool
  | .str _ => true
  | _ => false

/-- `isFunction` (line 3). -/
def isFunction : JSVal → Bool
  | .fn _ => true
  | _ => false

/-- `isRegExp` (line 5). -/
def isRegExp : JSVal → Bool
  | .regexp _ => true
  | _ => false

/-- `isValidEventName` (line 24). -/
def isValidEventName (v : JSVal) : Bool := isString v || isRegExp v

/-- A stored subscription pattern: the anchored exact-match RegExp built from
an escaped literal string (line 22), or a caller-supplied RegExp object. -/
inductive SubPattern where
  | anchored (body : List Char)
  | user (r : Nat)
deriving DecidableEq, Repr

/-- The ambient JavaScript environment: the behaviour of caller-supplied
RegExp objects (their `toString` and their match semantics) and of external
callbacks (whether a given callback throws when invoked). -/
structure Env where
  regexpStr : Nat → List Char
  regexpMatches : Nat → List Char → Bool
  extThrows : Nat → Bool

/-- Whether `topic.match(subscriptionPattern)` is truthy (line 203). -/
def patternMatches (env : Env) : SubPattern → List Char → Bool
  | .anchored body, t => anchoredRegexMatches body t
  | .user r, t => env.regexpMatches r t

/-- `createSubscriptionKey` (line 20): `eventName.toString()` for a RegExp,
the escaped literal for a string; `none` when the argument is neither (the
source would throw calling `.replace` on it). -/
def createSubscriptionKey (env : Env) : JSVal → Option (List Char)
  | .regexp r => some (env.regexpStr r)
  | .str s => some (escapeRegexpCharacters s)
  | _ => none

/-- `createSubscriptionPattern` (line 22): the RegExp itself, or the anchored
RegExp `^<escaped>$` built from a string. -/
def createSubscriptionPattern (env : Env) : JSVal → Option SubPattern
  | .regexp r => some (.user r)
  | .str s => some (.anchored (escapeRegexpCharacters s))
  | _ => none

/-! ### JS `Map`s and `Set`s as insertion-ordered lists -/

/-- `Map.prototype.get`: first binding of `k`. -/
def alistGet {K V : Type} [DecidableEq K] : List (K × V) → K → Option V
  | [], _ => none
  | p :: rest, k => if p.1 = k then some p.2 else alistGet rest k

/-- `Map.prototype.set`: overwrite an existing binding in place, else
append. -/
def alistSet {K V : Type} [DecidableEq K] : List (K × V) → K → V → List (K × V)
  | [], k, v => [(k, v)]
  | p :: rest, k, v => if p.1 = k then (k, v) :: rest else p :: alistSet rest k v

/-- `Map.prototype.delete`. -/
def alistDelete {K V : Type} [DecidableEq K] (m : List (K × V)) (k : K) :
    List (K × V) :=
  m.filter fun p => p.1 ≠ k

/-- `Set.prototype.add`. -/
def setAdd {A : Type} [DecidableEq A] (s : List A) (a : A) : List A :=
  if a ∈ s then s else s ++ [a]

/-- `Set.prototype.delete`. -/
def setDelete {A : Type} [DecidableEq A] (s : List A) (a : A) : List A :=
  s.filter fun b => b ≠ a

/-! ### Engine state -/

/-- One registry entry (lines 32-35): the stored pattern and the ordered
token-to-callback mapping. -/
structure Subscription where
  subscriptionPattern : SubPattern
  callbacks : List (Nat × Fn)
deriving DecidableEq, Repr

/-- The closure environment captured by a subscription token
(`createSubscriptionToken`, lines 176-197). -/
structure TokenEnv where
  scope : Option Nat
  subscriptionKey : List Char
  callback : Fn
deriving DecidableEq, Repr

/-- The engine's mutable state: the registry, the three reverse indexes, the
closure environments of all tokens ever created, and the fresh-token
counter.  Scopes are `Option Nat`: `none` is the root API's `undefined`
scope, `some n` an `isolate()` Symbol. -/
structure PubSubState where
  subscriptions : List (List Char × Subscription)
  subscriptionTokens : List Nat
  callbackSubscriptionTokens : List (Fn × List (List Char × List Nat))
  scopeSubscriptionTokens : List (Option Nat × List Nat)
  tokenEnvs : List (Nat × TokenEnv)
  nextToken : Nat
deriving DecidableEq, Repr

/-- The state of a freshly created pubsub instance. -/
def emptyState : PubSubState := ⟨[], [], [], [], [], 0⟩

/-! ### Engine operations -/

/-- `subscriptions.add` (lines 48-59): `getOrCreateMapElement` reuses an
existing entry — keeping its first-claimed pattern — or creates one, then
sets the callback under the token. -/
def subsAdd (store : List (List Char × Subscription)) (key : List Char)
    (pat : SubPattern) (tok : Nat) (f : Fn) : List (List Char × Subscription) :=
  let sub := (alistGet store key).getD ⟨pat, []⟩
  alistSet store key ⟨sub.subscriptionPattern, alistSet sub.callbacks tok f⟩

/-- `subscriptions.delete` (lines 63-72): drop the token's callback, and drop
the whole entry when its callback map empties. -/
def subsDelete (store : List (List Char × Subscription)) (key : List Char)
    (tok : Nat) : List (List Char × Subscription) :=
  match alistGet store key with
  | none => store
  | some sub =>
    let callbacks := sub.callbacks.filter fun p => p.1 ≠ tok
    if callbacks.isEmpty then alistDelete store key
    else alistSet store key ⟨sub.subscriptionPattern, callbacks⟩

/-- `callbackSubscriptionTokens.add` (lines 98-110). -/
def cbTokensAdd (store : List (Fn × List (List Char × List Nat))) (f : Fn)
    (key : List Char) (tok : Nat) : List (Fn × List (List Char × List Nat)) :=
  let km := (alistGet store f).getD []
  let ts := (alistGet km key).getD []
  alistSet store f (alistSet km key (setAdd ts tok))

/-- `callbackSubscriptionTokens.delete` (lines 112-130): prune the key when
its token set empties, then prune the callback when its key map empties. -/
def cbTokensDelete (store : List (Fn × List (List Char × List Nat))) (f : Fn)
    (key : List Char) (tok : Nat) : List (Fn × List (List Char × List Nat)) :=
  match alistGet store f with
  | none => store
  | some km =>
    let km' :=
      match alistGet km key with
      | none => km
      | some ts =>
        let ts' := setDelete ts tok
        if ts'.isEmpty then alistDelete km key else alistSet km key ts'
    if km'.isEmpty then alistDelete store f else alistSet store f km'

/-- `scopeSubscriptionTokens.add` (lines 152-160). -/
def scopeTokensAdd (store : List (Option Nat × List Nat)) (sc : Option Nat)
    (tok : Nat) : List (Option Nat × List Nat) :=
  let ts := (alistGet store sc).getD []
  alistSet store sc (setAdd ts tok)

/-- `scopeSubscriptionTokens.delete` (lines 162-172).  When the token set
empties the source calls `store.delete(tokens)` — passing the `Set` object
instead of the scope key.  A `Set` is never a key of this map, so nothing is
removed and the emptied set stays behind. -/
def scopeTokensDelete (store : List (Option Nat × List Nat)) (sc : Option Nat)
    (tok : Nat) : List (Option Nat × List Nat) :=
  match alistGet store sc with
  | none => store
  | some ts => alistSet store sc (setDelete ts tok)

/-- Invoking the token closure from `createSubscriptionToken`
(lines 182-194): bail out (returning `false`) when no registry entry for the
captured key survives, else remove this token from the registry and all three
indexes and return `true`.  The captured scope, key and callback live in
`tokenEnvs`. -/
def invokeToken (s : PubSubState) (t : Nat) : PubSubState × Bool :=
  match alistGet s.tokenEnvs t with
  | none => (s, false)
  | some te =>
    if (alistGet s.subscriptions te.subscriptionKey).isNone then (s, false)
    else
      ({ s with
          subscriptions := subsDelete s.subscriptions te.subscriptionKey t,
          subscriptionTokens := setDelete s.subscriptionTokens t,
          callbackSubscriptionTokens :=
            cbTokensDelete s.callbackSubscriptionTokens te.callback
              te.subscriptionKey t,
          scopeSubscriptionTokens :=
            scopeTokensDelete s.scopeSubscriptionTokens te.scope t },
        true)

/-- `currentTokens.reduce((result, token) => token() || result, false)`
(lines 304-305 and 346-347): invoke every collected token, or-ing the
results. -/
def runTokens (s : PubSubState) (toks : List Nat) : PubSubState × Bool :=
  toks.foldl
    (fun acc t =>
      let r := invokeToken acc.1 t
      (r.1, r.2 || acc.2))
    (s, false)

/-- `subscriptionTokens.has(f)` on a function value: only token closures ever
enter the set. -/
def subscriptionTokensHas (s : PubSubState) : Fn → Bool
  | .token t => decide (t ∈ s.subscriptionTokens)
  | _ => false

/-- `subscribe` (lines 236-252): reject a non-callable callback or invalid
event name with `null`; otherwise create the key, pattern and a fresh token,
record them in the registry and all three indexes, and return the token. -/
def subscribe (env : Env) (scope : Option Nat) (eventName : JSVal)
    (callback : JSVal) (s : PubSubState) : PubSubState × Option Fn :=
  match callback, createSubscriptionKey env eventName,
      createSubscriptionPattern env eventName with
  | .fn f, some key, some pat =>
    let tok := s.nextToken
    ({ subscriptions := subsAdd s.subscriptions key pat tok f,
       subscriptionTokens := setAdd s.subscriptionTokens tok,
       callbackSubscriptionTokens :=
         cbTokensAdd s.callbackSubscriptionTokens f key tok,
       scopeSubscriptionTokens :=
         scopeTokensAdd s.scopeSubscriptionTokens scope tok,
       tokenEnvs := s.tokenEnvs ++ [(tok, ⟨scope, key, f⟩)],
       nextToken := s.nextToken + 1 },
     some (.token tok))
  | _, _, _ => (s, none)

/-- `unsubscribe` (lines 270-306): resolve the three addressing modes to a
list of tokens, then invoke them all. -/
def unsubscribe (env : Env) (eventName : JSVal) (callback : JSVal)
    (s : PubSubState) : PubSubState × Bool :=
  let currentTokens : List Nat :=
    match eventName with
    | .fn f =>
      if subscriptionTokensHas s f then
        match f with
        | .token t => [t]
        | _ => []
      else
        match alistGet s.callbackSubscriptionTokens f with
        | some km => km.foldl (fun acc p => acc ++ p.2) []
        | none => []
    | _ =>
      if isValidEventName eventName then
        match callback with
        | .fn g =>
          match alistGet s.callbackSubscriptionTokens g with
          | some km =>
            match createSubscriptionKey env eventName with
            | some key => (alistGet km key).getD []
            | none => []
          | none => []
        | _ => []
      else []
  runTokens s currentTokens

/-- `getCallbacksForEventName` (lines 199-209): scan the registry in
insertion order and collect the callbacks of every entry whose pattern
matches. -/
def getCallbacksForEventName (env : Env) (s : PubSubState)
    (topic : List Char) : List Fn :=
  s.subscriptions.foldl
    (fun acc p =>
      if patternMatches env p.2.subscriptionPattern topic then
        acc ++ p.2.callbacks.map (·.2)
      else acc)
    []

/-- One observable invocation of an external callback with
`(eventName, data)`; payloads are opaque and modelled by `Nat`. -/
structure Invocation where
  callback : Nat
  eventName : List Char
  data : Nat
deriving DecidableEq, Repr

/-- Call one function value with `(eventName, data)`.  Returns the state, the
external-callback invocations performed, and whether the call threw.  An
external callback does not touch engine state and throws according to the
environment; a `subscribeOnce` wrapper (lines 353-356) first unsubscribes its
captured token, then calls the original callback; a token invoked as a
callback runs its unsubscription logic, ignoring the arguments. -/
def invokeFn (env : Env) : Fn → List Char → Nat → PubSubState →
    PubSubState × List Invocation × Bool
  | .ext id, topic, data, s => (s, [⟨id, topic, data⟩], env.extThrows id)
  | .token t, _, _, s => ((invokeToken s t).1, [], false)
  | .wrapper tok inner, topic, data, s =>
    let s1 := (unsubscribe env (.fn (.token tok)) .undef s).1
    invokeFn env inner topic data s1

/-- `createDeliveryFunction` (lines 211-217): invoke each resolved callback
under `try { ... } catch (e) { /* Continue regardless of error */ }` — the
thrown-error flag of each call is discarded and delivery continues. -/
def runDelivery (env : Env) : List Fn → List Char → Nat → PubSubState →
    PubSubState × List Invocation
  | [], _, _, s => (s, [])
  | f :: rest, topic, data, s =>
    let r1 := invokeFn env f topic data s
    let r2 := runDelivery env rest topic data r1.1
    (r2.1, r1.2.1 ++ r2.2)

/-- `publish` (lines 219-233): resolve the callbacks; with none, return
`false` and deliver nothing.  With `sync = true` run the delivery function
inline; with `sync = false` the delivery function goes to `setTimeout`, so
only the `true` return is visible in this one-step model. -/
def publish (env : Env) (topic : List Char) (data : Nat) (sync : Bool)
    (s : PubSubState) : PubSubState × Bool × List Invocation :=
  let callbacks := getCallbacksForEventName env s topic
  if callbacks.isEmpty then (s, false, [])
  else if sync then
    let r := runDelivery env callbacks topic data s
    (r.1, true, r.2)
  else (s, true, [])

/-- `hasSubscribers` (lines 257-263) for a string or absent argument:
`none` models `undefined`. -/
def hasSubscribers (env : Env) (s : PubSubState) : Option (List Char) → Bool
  | some t => !(getCallbacksForEventName env s t).isEmpty
  | none => s.subscriptions.length != 0

/-- `subscribeOnce` (lines 350-359): reject a non-callable callback, else
subscribe a wrapper that closes over the token `subscribe` is about to create
(`s.nextToken`) and the original callback. -/
def subscribeOnce (env : Env) (scope : Option Nat) (eventName : JSVal)
    (callback : JSVal) (s : PubSubState) : PubSubState × Option Fn :=
  match callback with
  | .fn f => subscribe env scope eventName (.fn (.wrapper s.nextToken f)) s
  | _ => (s, none)

/-- `!eventName`: `undefined` and the empty string are the falsy topic
specifiers in this model's value domain. -/
def isFalsyEventName : JSVal → Bool
  | .undef => true
  | .str [] => true
  | _ => false

/-- `unsubscribeAll` (lines 310-348).  `none` models a thrown `TypeError`:
with a falsy event name and a truthy scope that has no entry in the scope
index, `scopeSubscriptionTokens.get(scope).values()` dereferences
`undefined` (line 318); with a truthy event name that is neither string nor
RegExp, `createSubscriptionKey` calls `.replace` on a non-string. -/
def unsubscribeAll (env : Env) (scope : Option Nat) (eventName : JSVal)
    (s : PubSubState) : Option (PubSubState × Bool) :=
  if isFalsyEventName eventName then
    match scope with
    | some sc =>
      match alistGet s.scopeSubscriptionTokens (some sc) with
      | some ts => some (runTokens s ts)
      | none => none
    | none => some (runTokens s s.subscriptionTokens)
  else
    match createSubscriptionKey env eventName with
    | none => none
    | some key =>
      match alistGet s.subscriptions key with
      | none => some (runTokens s [])
      | some sub =>
        let toks := sub.callbacks.map (·.1)
        match scope with
        | some sc =>
          match alistGet s.scopeSubscriptionTokens (some sc) with
          | some scopeTs => some (runTokens s (toks.filter (· ∈ scopeTs)))
          | none => some (runTokens s [])
        | none => some (runTokens s toks)

/-- A concrete environment for closed examples: RegExp objects that stringify
to the empty string and match nothing, and callbacks that do not throw. -/
def defaultEnv : Env := ⟨fun _ => [], fun _ _ => false, fun _ => false⟩

/-- Shorthand for subscribing an external callback to a literal topic. -/
def subStr (env : Env) (scope : Option Nat) (topic : String) (cb : Nat)
    (s : PubSubState) : PubSubState :=
  (subscribe env scope (.str topic.toList) (.fn (.ext cb)) s).1

/-! ### Association-list lemmas -/

theorem alistSet_self {K V : Type} [DecidableEq K] (m : List (K × V)) (k : K)
    (v : V) (h : alistGet m k = some v) : alistSet m k v = m := by
  induction m with
  | nil => simp [alistGet] at h
  | cons p rest ih =>
    obtain ⟨a, b⟩ := p
    by_cases hk : a = k
    · subst hk
      simp [alistGet] at h
      simp [alistSet, h]
    · simp [alistGet, hk] at h
      simp [alistSet, hk, ih h]

theorem alistGet_of_mem_of_nodup {K V : Type} [DecidableEq K]
    (m : List (K × V)) (p : K × V) (hp : p ∈ m)
    (hnd : (m.map Prod.fst).Nodup) : alistGet m p.1 = some p.2 := by
  induction m with
  | nil => cases hp
  | cons q rest ih =>
    rcases List.mem_cons.mp hp with h | h
    · subst h
      simp [alistGet]
    · have hq : q.1 ≠ p.1 := by
        intro he
        rcases List.nodup_cons.mp hnd with ⟨hne, _⟩
        exact hne (he ▸ List.mem_map_of_mem Prod.fst h)
      simp only [alistGet]
      rw [if_neg hq]
      exact ih h (List.nodup_cons.mp hnd).2

theorem mem_of_alistGet {K V : Type} [DecidableEq K] (m : List (K × V))
    (k : K) (v : V) (h : alistGet m k = some v) : (k, v) ∈ m := by
  induction m with
  | nil => simp [alistGet] at h
  | cons p rest ih =>
    obtain ⟨a, b⟩ := p
    by_cases hk : a = k
    · subst hk
      simp [alistGet] at h
      simp [h]
    · simp [alistGet, hk] at h
      exact List.mem_cons_of_mem _ (ih h)

/-! ### Claim C1 -/

/-- C1: the spec says `unsubscribeAll` on a scope that never subscribed
anything must not raise; the code disagrees.  For any scope with no entry in
the scope index — in particular a fresh `isolate()` facade — `unsubscribeAll`
with no topic specifier evaluates
`scopeSubscriptionTokens.get(scope).values()` on `undefined` (line 318) and
throws a `TypeError` (modelled by the `none` result). -/
theorem unsubscribeAll_fresh_scope_throws (env : Env) (s : PubSubState)
    (sc : Nat) (h : alistGet s.scopeSubscriptionTokens (some sc) = none) :
    unsubscribeAll env (some sc) .undef s = none := by
  simp [unsubscribeAll, isFalsyEventName, h]

/-- C1 witness: a fresh isolated scope of a fresh engine. -/
theorem unsubscribeAll_fresh_scope_throws_witness :
    unsubscribeAll defaultEnv (some 0) .undef emptyState = none :=
  unsubscribeAll_fresh_scope_throws defaultEnv emptyState 0 rfl

/-! ### Claim C3 -/

/-- C3: one subscribe/unsubscribe cycle on a fresh engine empties the
registry, the token set and the callback index, but the scope index retains a
residual entry whose token set has been emptied: `scopeSubscriptionTokens`'s
delete calls `store.delete(tokens)` (line 169), passing the `Set` object
instead of the scope key, so the entry is never pruned. -/
theorem cycle_leaves_residual_scope_entry :
    (invokeToken (subStr defaultEnv none "test" 0 emptyState) 0).2 = true
    ∧ (invokeToken (subStr defaultEnv none "test" 0 emptyState) 0).1.subscriptions = []
    ∧ (invokeToken (subStr defaultEnv none "test" 0 emptyState) 0).1.subscriptionTokens = []
    ∧ (invokeToken (subStr defaultEnv none "test" 0
        emptyState) 0).1.callbackSubscriptionTokens = []
    ∧ (invokeToken (subStr defaultEnv none "test" 0
        emptyState) 0).1.scopeSubscriptionTokens = [(none, [])] := by
  decide

/-! ### Claim C2 -/

/-- Two live subscriptions sharing the literal key `test`: token `0` belongs
to callback `1`, token `1` to callback `2`. -/
def sharedKeyState : PubSubState :=
  subStr defaultEnv none "test" 2 (subStr defaultEnv none "test" 1 emptyState)

/-- C2 counterexample: after a first invocation that returned `true`, the
second invocation of token `0` again returns `true` — not `false` — because
another live subscription still occupies the same lookup key and the guard on
line 183 only checks that the key exists. -/
theorem token_second_invocation_returns_true :
    (invokeToken sharedKeyState 0).2 = true
    ∧ (invokeToken (invokeToken sharedKeyState 0).1 0).2 = true := by
  decide

/-- C2 (amended): re-invoking a token that is no longer recorded in the
registry or any index never changes the state; it returns `false` exactly
when the registry no longer has an entry for the token's captured key, and
`true` (despite removing nothing) while other live subscriptions still occupy
that key. -/
theorem token_reinvocation_state_noop (s : PubSubState) (t : Nat)
    (hts : t ∉ s.subscriptionTokens)
    (hreg : ∀ p ∈ s.subscriptions, ∀ q ∈ p.2.callbacks, q.1 ≠ t)
    (hcbi : ∀ p ∈ s.callbackSubscriptionTokens, ∀ q ∈ p.2, t ∉ q.2)
    (hsci : ∀ p ∈ s.scopeSubscriptionTokens, t ∉ p.2)
    (hregNE : ∀ p ∈ s.subscriptions, p.2.callbacks ≠ [])
    (hcbiNE : ∀ p ∈ s.callbackSubscriptionTokens, p.2 ≠ [])
    (hcbiInnerNE : ∀ p ∈ s.callbackSubscriptionTokens, ∀ q ∈ p.2, q.2 ≠ []) :
    invokeToken s t
      = (s, ((alistGet s.tokenEnvs t).bind
          (fun te => alistGet s.subscriptions te.subscriptionKey)).isSome) := by
  cases henv : alistGet s.tokenEnvs t with
  | none => simp [invokeToken, henv]
  | some te =>
    cases hkey : alistGet s.subscriptions te.subscriptionKey with
    | none => simp [invokeToken, henv, hkey]
    | some sub =>
      have hmem : (te.subscriptionKey, sub) ∈ s.subscriptions :=
        mem_of_alistGet _ _ _ hkey
      have hfil : (sub.callbacks.filter fun q => q.1 ≠ t) = sub.callbacks :=
        List.filter_eq_self.mpr fun q hq => by
          simpa using hreg _ hmem q hq
      have hsubs : subsDelete s.subscriptions te.subscriptionKey t
          = s.subscriptions := by
        simp only [subsDelete, hkey, hfil]
        rw [if_neg (by simpa using hregNE _ hmem)]
        exact alistSet_self _ _ _ hkey
      have htoks : setDelete s.subscriptionTokens t = s.subscriptionTokens :=
        List.filter_eq_self.mpr fun b hb => by
          simp only [ne_eq, decide_eq_true_eq]
          intro hbt
          exact hts (hbt ▸ hb)
      have hcbi' : cbTokensDelete s.callbackSubscriptionTokens te.callback
          te.subscriptionKey t = s.callbackSubscriptionTokens := by
        cases hcb : alistGet s.callbackSubscriptionTokens te.callback with
        | none => simp [cbTokensDelete, hcb]
        | some km =>
          have hkmmem : (te.callback, km) ∈ s.callbackSubscriptionTokens :=
            mem_of_alistGet _ _ _ hcb
          have hkmne : ¬km.isEmpty := by simpa using hcbiNE _ hkmmem
          cases hk2 : alistGet km te.subscriptionKey with
          | none =>
            simp only [cbTokensDelete, hcb, hk2]
            rw [if_neg hkmne]
            exact alistSet_self _ _ _ hcb
          | some ts =>
            have htsmem : (te.subscriptionKey, ts) ∈ km := mem_of_alistGet _ _ _ hk2
            have hts' : setDelete ts t = ts :=
              List.filter_eq_self.mpr fun b hb => by
                simp only [ne_eq, decide_eq_true_eq]
                intro hbt
                exact hcbi _ hkmmem _ htsmem (hbt ▸ hb)
            have htsne : ¬ts.isEmpty := by
              simpa using hcbiInnerNE _ hkmmem _ htsmem
            simp only [cbTokensDelete, hcb, hk2, hts']
            rw [if_neg htsne, alistSet_self _ _ _ hk2]
            rw [if_neg hkmne]
            exact alistSet_self _ _ _ hcb
      have hsci' : scopeTokensDelete s.scopeSubscriptionTokens te.scope t
          = s.scopeSubscriptionTokens := by
        cases hsc : alistGet s.scopeSubscriptionTokens te.scope with
        | none => simp [scopeTokensDelete, hsc]
        | some ts =>
          have htsmem : (te.scope, ts) ∈ s.scopeSubscriptionTokens :=
            mem_of_alistGet _ _ _ hsc
          have hts' : setDelete ts t = ts :=
            List.filter_eq_self.mpr fun b hb => by
              simp only [ne_eq, decide_eq_true_eq]
              intro hbt
              exact hsci _ htsmem (hbt ▸ hb)
          simp only [scopeTokensDelete, hsc, hts']
          exact alistSet_self _ _ _ hsc
      simp only [invokeToken, henv, hkey, Option.isNone_some, Bool.false_eq_true,
        if_false, hsubs, htoks, hcbi', hsci', Option.some_bind, Option.isSome_some]

/-- C2 amended-claim witness: the state after token `0`'s first successful
invocation, where the shared key `test` is still live. -/
theorem token_reinvocation_state_noop_witness :
    invokeToken (invokeToken sharedKeyState 0).1 0
      = ((invokeToken sharedKeyState 0).1, true) := by
  have h := token_reinvocation_state_noop (invokeToken sharedKeyState 0).1 0
    (by decide) (by decide) (by decide) (by decide) (by decide) (by decide)
    (by decide)
  rw [h]
  decide

/-! ### Claim C6 -/

/-- C6: the subscription pattern built from a literal string specifier
matches a published topic exactly when the topic equals the literal:
escaping keeps metacharacters in the literal inert. -/
theorem string_spec_matches_iff_eq (env : Env) (spec t : List Char)
    (pat : SubPattern)
    (h : createSubscriptionPattern env (.str spec) = some pat) :
    patternMatches env pat t = true ↔ t = spec := by
  have hp : pat = .anchored (escapeRegexpCharacters spec) := by
    simpa [createSubscriptionPattern] using h.symm
  subst hp
  simpa [patternMatches] using anchoredRegexMatches_escape spec t

/-- C6 witness: the literal `"^part1.*"` matches itself and does not match
`"part1.anything"`. -/
theorem string_spec_matches_iff_eq_witness :
    patternMatches defaultEnv
        (.anchored (escapeRegexpCharacters "^part1.*".toList))
        "^part1.*".toList = true
    ∧ patternMatches defaultEnv
        (.anchored (escapeRegexpCharacters "^part1.*".toList))
        "part1.anything".toList = false := by
  constructor
  · exact (string_spec_matches_iff_eq defaultEnv "^part1.*".toList
      "^part1.*".toList _ rfl).mpr rfl
  · have h := string_spec_matches_iff_eq defaultEnv "^part1.*".toList
      "part1.anything".toList _ rfl
    cases hb : patternMatches defaultEnv
        (.anchored (escapeRegexpCharacters "^part1.*".toList))
        "part1.anything".toList with
    | false => rfl
    | true => exact absurd (h.mp hb) (by decide)

/-! ### Claim C7 -/

/-- C7: with a non-callable callback or a topic specifier that is neither a
string nor a RegExp, `subscribe` and `subscribeOnce` return `null` and leave
the engine state unchanged, raising nothing. -/
theorem invalid_args_subscribe_null (env : Env) (scope : Option Nat)
    (e cb : JSVal) (s : PubSubState)
    (h : isFunction cb = false ∨ isValidEventName e = false) :
    subscribe env scope e cb s = (s, none)
    ∧ subscribeOnce env scope e cb s = (s, none) := by
  constructor
  · cases cb <;> cases e <;>
      simp_all [subscribe, createSubscriptionKey, createSubscriptionPattern,
        isFunction, isValidEventName, isString, isRegExp]
  · cases cb <;> cases e <;>
      simp_all [subscribe, subscribeOnce, createSubscriptionKey,
        createSubscriptionPattern, isFunction, isValidEventName, isString,
        isRegExp]

/-- C7 witness: an `undefined` topic with a callable callback. -/
theorem invalid_args_subscribe_null_witness :
    subscribe defaultEnv none .undef (.fn (.ext 0)) emptyState
        = (emptyState, none)
    ∧ subscribeOnce defaultEnv none .undef (.fn (.ext 0)) emptyState
        = (emptyState, none) :=
  invalid_args_subscribe_null defaultEnv none .undef (.fn (.ext 0)) emptyState
    (Or.inr rfl)

/-! ### Claim C5 -/

/-- The registry scan of `getCallbacksForEventName` in closed form: the
callbacks of the matching entries, in registry order. -/
theorem getCallbacksForEventName_eq (env : Env) (s : PubSubState)
    (t : List Char) :
    getCallbacksForEventName env s t
      = (s.subscriptions.filter fun p =>
            patternMatches env p.2.subscriptionPattern t).flatMap
          fun p => p.2.callbacks.map (·.2) := by
  have aux : ∀ (l : List (List Char × Subscription)) (acc : List Fn),
      l.foldl
          (fun acc p =>
            if patternMatches env p.2.subscriptionPattern t then
              acc ++ p.2.callbacks.map (·.2)
            else acc) acc
        = acc ++ (l.filter fun p =>
              patternMatches env p.2.subscriptionPattern t).flatMap
            (fun p => p.2.callbacks.map (·.2)) := by
    intro l
    induction l with
    | nil => intro acc; simp
    | cons p rest ih =>
      intro acc
      by_cases hp : patternMatches env p.2.subscriptionPattern t = true
      · simp [hp, ih, List.filter_cons]
      · simp [hp, ih, List.filter_cons]
  simpa [getCallbacksForEventName] using aux s.subscriptions []

/-- A resolved-callback list is nonempty exactly when some registry entry's
pattern matches (given no entry has an empty callback map). -/
theorem getCallbacksForEventName_ne_nil (env : Env) (s : PubSubState)
    (t : List Char)
    (hne : ∀ p ∈ s.subscriptions, p.2.callbacks ≠ []) :
    (¬ getCallbacksForEventName env s t = [])
      ↔ ∃ p ∈ s.subscriptions, patternMatches env p.2.subscriptionPattern t
          = true := by
  rw [getCallbacksForEventName_eq]
  constructor
  · intro h
    rcases List.exists_mem_of_ne_nil _ h with ⟨x, hx⟩
    rcases List.mem_flatMap.mp hx with ⟨p, hp, _⟩
    rcases List.mem_filter.mp hp with ⟨hmem, hmatch⟩
    exact ⟨p, hmem, hmatch⟩
  · rintro ⟨p, hp, hmatch⟩
    intro hnil
    rcases List.exists_mem_of_ne_nil _ (hne p hp) with ⟨q, hq⟩
    have hx : q.2 ∈ (s.subscriptions.filter fun p =>
        patternMatches env p.2.subscriptionPattern t).flatMap
          (fun p => p.2.callbacks.map (·.2)) :=
      List.mem_flatMap.mpr
        ⟨p, List.mem_filter.mpr ⟨hp, hmatch⟩, List.mem_map_of_mem _ hq⟩
    rw [hnil] at hx
    cases hx

/-- C5: `hasSubscribers(t)` coincides with the boolean `publish(t, …)`
returns, both are `true` exactly when some registered entry's pattern matches
the concrete topic, and when nothing matches `publish` leaves the state
untouched and delivers nothing. -/
theorem hasSubscribers_iff_publish (env : Env) (s : PubSubState)
    (t : List Char) (data : Nat) (sync : Bool)
    (hne : ∀ p ∈ s.subscriptions, p.2.callbacks ≠ []) :
    hasSubscribers env s (some t) = (publish env t data sync s).2.1
    ∧ ((publish env t data sync s).2.1 = true
        ↔ ∃ p ∈ s.subscriptions, patternMatches env p.2.subscriptionPattern t
            = true)
    ∧ ((publish env t data sync s).2.1 = false
        → publish env t data sync s = (s, false, [])) := by
  have hiff := getCallbacksForEventName_ne_nil env s t hne
  by_cases hgc : getCallbacksForEventName env s t = []
  · have hex : ¬ ∃ p ∈ s.subscriptions,
        patternMatches env p.2.subscriptionPattern t = true := by
      intro hx
      exact (hiff.mpr hx) hgc
    have hpub : publish env t data sync s = (s, false, []) := by
      simp [publish, hgc]
    refine ⟨by rw [hpub]; simp [hasSubscribers, hgc], ?_, fun _ => hpub⟩
    rw [hpub]
    exact iff_of_false (by simp) hex
  · have hex := hiff.mp hgc
    have hne' : (getCallbacksForEventName env s t).isEmpty = false := by
      simpa [List.isEmpty_iff] using hgc
    have hpub : (publish env t data sync s).2.1 = true := by
      cases sync <;> simp [publish, hne']
    refine ⟨?_, ?_, ?_⟩
    · rw [hpub]
      simp [hasSubscribers, hne']
    · rw [hpub]
      exact iff_of_true rfl hex
    · intro hfalse
      rw [hpub] at hfalse
      exact absurd hfalse (by simp)

/-- C5 witness: a single literal subscription on `test`, published
synchronously. -/
theorem hasSubscribers_iff_publish_witness :
    (hasSubscribers defaultEnv (subStr defaultEnv none "test" 1 emptyState)
        (some "test".toList)
      = (publish defaultEnv "test".toList 0 true
          (subStr defaultEnv none "test" 1 emptyState)).2.1)
    ∧ ((publish defaultEnv "test".toList 0 true
          (subStr defaultEnv none "test" 1 emptyState)).2.1 = true
        ↔ ∃ p ∈ (subStr defaultEnv none "test" 1 emptyState).subscriptions,
            patternMatches defaultEnv p.2.subscriptionPattern "test".toList
              = true)
    ∧ ((publish defaultEnv "test".toList 0 true
          (subStr defaultEnv none "test" 1 emptyState)).2.1 = false
        → publish defaultEnv "test".toList 0 true
            (subStr defaultEnv none "test" 1 emptyState)
          = (subStr defaultEnv none "test" 1 emptyState, false, [])) :=
  hasSubscribers_iff_publish defaultEnv
    (subStr defaultEnv none "test" 1 emptyState) "test".toList 0 true
    (by decide)

/-! ### Claim C8 -/

/-- Delivery to external callbacks: every resolved callback is invoked, in
order, with the published topic and payload; the per-callback `try`/`catch`
discards whatever a callback throws, so the outcome does not depend on which
callbacks throw and no error reaches the publisher. -/
theorem runDelivery_ext (env : Env) (cbs : List Nat) (t : List Char)
    (d : Nat) (s : PubSubState) :
    runDelivery env (cbs.map Fn.ext) t d s
      = (s, cbs.map fun c => ⟨c, t, d⟩) := by
  induction cbs with
  | nil => rfl
  | cons c rest ih => simp [runDelivery, invokeFn, ih]

/-- C8: when a synchronous publish resolves to external callbacks, every one
of them is invoked exactly once with `(topic, data)` — in particular the
result does not depend on the environment's `extThrows`, so one callback
throwing neither skips the remaining callbacks nor propagates to the
publisher. -/
theorem publish_delivers_all_despite_throws (env : Env) (s : PubSubState)
    (t : List Char) (d : Nat) (cbs : List Nat)
    (hres : getCallbacksForEventName env s t = cbs.map Fn.ext) :
    publish env t d true s = (s, !cbs.isEmpty, cbs.map fun c => ⟨c, t, d⟩) := by
  by_cases hc : cbs = []
  · subst hc
    simp [publish, hres]
  · have h1 : ((cbs.map Fn.ext).isEmpty) = false := by
      simpa [List.isEmpty_iff] using hc
    have h2 : (cbs.isEmpty) = false := by simpa [List.isEmpty_iff] using hc
    simp [publish, hres, h1, h2, runDelivery_ext]

/-- An environment in which external callback `2` throws. -/
def throwingEnv : Env := ⟨fun _ => [], fun _ _ => false, fun i => decide (i = 2)⟩

/-- Three subscribers to the literal topic `t`; the middle one throws. -/
def threeSubs : PubSubState :=
  subStr throwingEnv none "t" 3
    (subStr throwingEnv none "t" 2 (subStr throwingEnv none "t" 1 emptyState))

/-- C8 witness: with the middle of three subscribers throwing, all three are
invoked exactly once each. -/
theorem publish_delivers_all_despite_throws_witness :
    publish throwingEnv "t".toList 9 true threeSubs
      = (threeSubs, true,
          [⟨1, "t".toList, 9⟩, ⟨2, "t".toList, 9⟩, ⟨3, "t".toList, 9⟩]) := by
  rw [publish_delivers_all_despite_throws throwingEnv threeSubs "t".toList 9
    [1, 2, 3] (by decide)]
  rfl

/-! ### Claim C4 -/

/-- C4: for any literal topic, `subscribeOnce` followed by two synchronous
publishes of that topic invokes the original callback exactly once, on the
first publish: the wrapper unsubscribes its own token before invoking the
callback, so the second publish resolves no callbacks at all. -/
theorem subscribeOnce_fires_once (env : Env) (t : List Char) (cb d1 d2 : Nat) :
    (subscribeOnce env none (.str t) (.fn (.ext cb)) emptyState).2
        = some (.token 0)
    ∧ (publish env t d1 true
        (subscribeOnce env none (.str t) (.fn (.ext cb)) emptyState).1).2
      = (true, [⟨cb, t, d1⟩])
    ∧ (publish env t d2 true
        (publish env t d1 true
          (subscribeOnce env none (.str t) (.fn (.ext cb))
            emptyState).1).1).2
      = (false, []) := by
  have hb : anchoredRegexMatches (escapeRegexpCharacters t) t = true :=
    (anchoredRegexMatches_escape t t).mpr rfl
  have hs1 : subscribeOnce env none (.str t) (.fn (.ext cb)) emptyState
      = (⟨[(escapeRegexpCharacters t,
              ⟨.anchored (escapeRegexpCharacters t),
                [(0, .wrapper 0 (.ext cb))]⟩)],
          [0],
          [(.wrapper 0 (.ext cb), [(escapeRegexpCharacters t, [0])])],
          [(none, [0])],
          [(0, ⟨none, escapeRegexpCharacters t, .wrapper 0 (.ext cb)⟩)], 1⟩,
        some (.token 0)) := rfl
  rw [hs1]
  have hp1 : publish env t d1 true
      (⟨[(escapeRegexpCharacters t,
            ⟨.anchored (escapeRegexpCharacters t),
              [(0, .wrapper 0 (.ext cb))]⟩)],
        [0],
        [(.wrapper 0 (.ext cb), [(escapeRegexpCharacters t, [0])])],
        [(none, [0])],
        [(0, ⟨none, escapeRegexpCharacters t, .wrapper 0 (.ext cb)⟩)],
        1⟩ : PubSubState)
      = (⟨[], [], [], [(none, [])],
          [(0, ⟨none, escapeRegexpCharacters t, .wrapper 0 (.ext cb)⟩)], 1⟩,
        true, [⟨cb, t, d1⟩]) := by
    simp [publish, getCallbacksForEventName, patternMatches, hb, runDelivery,
      invokeFn, unsubscribe, subscriptionTokensHas, runTokens, invokeToken,
      alistGet, subsDelete, alistDelete, setDelete, cbTokensDelete,
      scopeTokensDelete, alistSet, setAdd, List.filter]
  rw [hp1]
  exact ⟨rfl, rfl, rfl⟩

/-! ### Well-formedness of reachable states

The reverse indexes are derived state; the following invariant captures their
consistency with the registry (and holds for every state the engine can
reach, as the witnesses below check on concrete states).  It is the
hypothesis under which the bulk-unsubscription claims are settled. -/

/-- The callback map of the registry entry at key `k` (empty when absent). -/
def regCallbacks (s : PubSubState) (k : List Char) : List (Nat × Fn) :=
  ((alistGet s.subscriptions k).map Subscription.callbacks).getD []

/-- The token set the callback index holds for `g` under key `k` (empty when
absent). -/
def cbiTokens (s : PubSubState) (g : Fn) (k : List Char) : List Nat :=
  ((alistGet s.callbackSubscriptionTokens g).bind fun km => alistGet km k).getD []

/-- The key and callback captured by token `t`'s closure. -/
def envKeyCb (s : PubSubState) (t : Nat) : Option (List Char × Fn) :=
  (alistGet s.tokenEnvs t).map fun te => (te.subscriptionKey, te.callback)

/-- The scope captured by token `t`'s closure. -/
def envScope (s : PubSubState) (t : Nat) : Option (Option Nat) :=
  (alistGet s.tokenEnvs t).map TokenEnv.scope

/-- Consistency of the registry, the three reverse indexes and the token
closures. -/
structure WF (s : PubSubState) : Prop where
  regKeysNodup : (s.subscriptions.map Prod.fst).Nodup
  regNE : ∀ p ∈ s.subscriptions, p.2.callbacks ≠ []
  regEnv : ∀ p ∈ s.subscriptions, ∀ q ∈ p.2.callbacks,
    envKeyCb s q.1 = some (p.1, q.2)
  regCbi : ∀ p ∈ s.subscriptions, ∀ q ∈ p.2.callbacks,
    q.1 ∈ cbiTokens s q.2 p.1
  regToks : ∀ p ∈ s.subscriptions, ∀ q ∈ p.2.callbacks,
    q.1 ∈ s.subscriptionTokens
  toksNodup : s.subscriptionTokens.Nodup
  toksReg : ∀ t ∈ s.subscriptionTokens,
    ∃ p ∈ s.subscriptions, ∃ q ∈ p.2.callbacks, q.1 = t
  cbiKeysNodup : (s.callbackSubscriptionTokens.map Prod.fst).Nodup
  cbiNE : ∀ p ∈ s.callbackSubscriptionTokens, p.2 ≠ []
  cbiInnerKeysNodup : ∀ p ∈ s.callbackSubscriptionTokens,
    (p.2.map Prod.fst).Nodup
  cbiInnerNE : ∀ p ∈ s.callbackSubscriptionTokens, ∀ q ∈ p.2, q.2 ≠ []
  cbiInnerNodup : ∀ p ∈ s.callbackSubscriptionTokens, ∀ q ∈ p.2, q.2.Nodup
  cbiEnv : ∀ p ∈ s.callbackSubscriptionTokens, ∀ q ∈ p.2, ∀ t ∈ q.2,
    envKeyCb s t = some (q.1, p.1)
  cbiReg : ∀ p ∈ s.callbackSubscriptionTokens, ∀ q ∈ p.2, ∀ t ∈ q.2,
    (t, p.1) ∈ regCallbacks s q.1
  sciKeysNodup : (s.scopeSubscriptionTokens.map Prod.fst).Nodup
  sciNodup : ∀ p ∈ s.scopeSubscriptionTokens, p.2.Nodup
  sciEnv : ∀ p ∈ s.scopeSubscriptionTokens, ∀ t ∈ p.2, envScope s t = some p.1
  sciReg : ∀ p ∈ s.scopeSubscriptionTokens, ∀ t ∈ p.2,
    ∃ p' ∈ s.subscriptions, ∃ q ∈ p'.2.callbacks, q.1 = t

/-! ### Bulk removal: unsubscribing a set of tokens, componentwise -/

/-- The registry after every token in `ts` has been unsubscribed: entries
lose those tokens, and entries whose callback map empties disappear. -/
def regEraseToks (ts : List Nat) (store : List (List Char × Subscription)) :
    List (List Char × Subscription) :=
  store.filterMap fun p =>
    let cbs := p.2.callbacks.filter fun q => q.1 ∉ ts
    if cbs.isEmpty then none
    else some (p.1, ⟨p.2.subscriptionPattern, cbs⟩)

/-- The callback index after every token in `ts` has been unsubscribed, with
its bottom-up pruning. -/
def cbiEraseToks (ts : List Nat)
    (store : List (Fn × List (List Char × List Nat))) :
    List (Fn × List (List Char × List Nat)) :=
  store.filterMap fun p =>
    let km := p.2.filterMap fun q =>
      let ts' := q.2.filter fun x => x ∉ ts
      if ts'.isEmpty then none else some (q.1, ts')
    if km.isEmpty then none else some (p.1, km)

/-- The scope index after every token in `ts` has been unsubscribed: sets are
filtered but entries are never pruned (line 169 deletes by the `Set` object,
not the scope). -/
def sciEraseToks (ts : List Nat) (store : List (Option Nat × List Nat)) :
    List (Option Nat × List Nat) :=
  store.map fun p => (p.1, p.2.filter fun x => x ∉ ts)

/-- The state after unsubscribing every token in `ts`.  Token closures
(`tokenEnvs`) and the counter survive. -/
def eraseToks (ts : List Nat) (s : PubSubState) : PubSubState :=
  { s with
    subscriptions := regEraseToks ts s.subscriptions,
    subscriptionTokens := s.subscriptionTokens.filter fun x => x ∉ ts,
    callbackSubscriptionTokens := cbiEraseToks ts s.callbackSubscriptionTokens,
    scopeSubscriptionTokens := sciEraseToks ts s.scopeSubscriptionTokens }

/-- All tokens the callback index holds for a callback, across all of its
keys — the collection `unsubscribe` makes in its by-callback mode
(lines 282-288). -/
def cbiAllTokens (s : PubSubState) (f : Fn) : List Nat :=
  ((alistGet s.callbackSubscriptionTokens f).getD []).foldl
    (fun acc q => acc ++ q.2) []

theorem foldl_append_eq_flatMap {A B : Type} (f : A → List B) :
    ∀ (l : List A) (acc : List B),
      l.foldl (fun acc q => acc ++ f q) acc = acc ++ l.flatMap f := by
  intro l
  induction l with
  | nil => intro acc; simp
  | cons q rest ih => intro acc; simp [ih]

theorem cbiAllTokens_eq (s : PubSubState) (f : Fn) :
    cbiAllTokens s f
      = ((alistGet s.callbackSubscriptionTokens f).getD []).flatMap (·.2) := by
  simpa [cbiAllTokens] using
    foldl_append_eq_flatMap (·.2) ((alistGet s.callbackSubscriptionTokens f).getD []) []

theorem setDelete_eq_filter_not_mem (l : List Nat) (t : Nat) :
    setDelete l t = l.filter fun x => x ∉ [t] := by
  simp [setDelete]

theorem filter_key_ne_eq (l : List (Nat × Fn)) (t : Nat) :
    (l.filter fun q => q.1 ≠ t) = l.filter fun q => q.1 ∉ [t] := by
  refine List.filter_congr fun q _ => ?_
  simp

theorem regEraseToks_cons (ts : List Nat) (p : List Char × Subscription)
    (rest : List (List Char × Subscription)) :
    regEraseToks ts (p :: rest)
      = if (p.2.callbacks.filter fun q => q.1 ∉ ts).isEmpty
        then regEraseToks ts rest
        else (p.1, ⟨p.2.subscriptionPattern,
              p.2.callbacks.filter fun q => q.1 ∉ ts⟩) :: regEraseToks ts rest := by
  by_cases h : ((p.2.callbacks.filter fun q => q.1 ∉ ts).isEmpty : Prop)
  · rw [if_pos h]
    simp only [regEraseToks, List.filterMap_cons, if_pos h]
  · rw [if_neg h]
    simp only [regEraseToks, List.filterMap_cons, if_neg h]

theorem cbiEraseToks_inner_cons (ts : List Nat) (q : List Char × List Nat)
    (rest : List (List Char × List Nat)) :
    ((q :: rest).filterMap fun q =>
        let ts' := q.2.filter fun x => x ∉ ts
        if ts'.isEmpty then none else some (q.1, ts'))
      = if (q.2.filter fun x => x ∉ ts).isEmpty
        then rest.filterMap fun q =>
          let ts' := q.2.filter fun x => x ∉ ts
          if ts'.isEmpty then none else some (q.1, ts')
        else (q.1, q.2.filter fun x => x ∉ ts)
          :: rest.filterMap fun q =>
            let ts' := q.2.filter fun x => x ∉ ts
            if ts'.isEmpty then none else some (q.1, ts') := by
  by_cases h : ((q.2.filter fun x => x ∉ ts).isEmpty : Prop)
  · rw [if_pos h]
    simp only [List.filterMap_cons, if_pos h]
  · rw [if_neg h]
    simp only [List.filterMap_cons, if_neg h]

theorem cbiEraseToks_cons (ts : List Nat) (p : Fn × List (List Char × List Nat))
    (rest : List (Fn × List (List Char × List Nat))) :
    cbiEraseToks ts (p :: rest)
      = if (p.2.filterMap fun q =>
              let ts' := q.2.filter fun x => x ∉ ts
              if ts'.isEmpty then none else some (q.1, ts')).isEmpty
        then cbiEraseToks ts rest
        else (p.1, p.2.filterMap fun q =>
              let ts' := q.2.filter fun x => x ∉ ts
              if ts'.isEmpty then none else some (q.1, ts'))
          :: cbiEraseToks ts rest := by
  by_cases h : ((p.2.filterMap fun q =>
      let ts' := q.2.filter fun x => x ∉ ts
      if ts'.isEmpty then none else some (q.1, ts')).isEmpty : Prop)
  · rw [if_pos h]
    simp only [cbiEraseToks, List.filterMap_cons, if_pos h]
  · rw [if_neg h]
    simp only [cbiEraseToks, List.filterMap_cons, if_neg h]

theorem sciEraseToks_cons (ts : List Nat) (p : Option Nat × List Nat)
    (rest : List (Option Nat × List Nat)) :
    sciEraseToks ts (p :: rest)
      = (p.1, p.2.filter fun x => x ∉ ts) :: sciEraseToks ts rest := rfl

/-- Erasing tokens that occur nowhere in the registry changes nothing. -/
theorem regEraseToks_id (ts : List Nat) (m : List (List Char × Subscription))
    (h : ∀ p ∈ m, ∀ q ∈ p.2.callbacks, q.1 ∉ ts)
    (hne : ∀ p ∈ m, p.2.callbacks ≠ []) :
    regEraseToks ts m = m := by
  induction m with
  | nil => rfl
  | cons p rest ih =>
    have hfil : (p.2.callbacks.filter fun q => q.1 ∉ ts) = p.2.callbacks :=
      List.filter_eq_self.mpr fun q hq => by
        simpa using h p (List.mem_cons_self p rest) q hq
    have hemp : ¬ ((p.2.callbacks.filter fun q => q.1 ∉ ts).isEmpty : Prop) := by
      rw [hfil]
      simpa using hne p (List.mem_cons_self p rest)
    rw [regEraseToks_cons, if_neg hemp, hfil,
      ih (fun p' hp' => h p' (List.mem_cons_of_mem _ hp'))
        (fun p' hp' => hne p' (List.mem_cons_of_mem _ hp'))]

/-- Evaluation of `subscriptions.delete` when the key is present. -/
theorem subsDelete_present (m : List (List Char × Subscription)) (k : List Char)
    (t : Nat) (sub : Subscription) (h : alistGet m k = some sub) :
    subsDelete m k t
      = if (sub.callbacks.filter fun q => q.1 ≠ t).isEmpty
        then alistDelete m k
        else alistSet m k ⟨sub.subscriptionPattern,
          sub.callbacks.filter fun q => q.1 ≠ t⟩ := by
  unfold subsDelete
  rw [h]

/-- `subscriptions.delete` for one token equals erasing that token everywhere
in the registry, provided keys are unique, entries are nonempty, the token
lives only under `k`, and `k` is present. -/
theorem subsDelete_eq_regEraseToks (m : List (List Char × Subscription))
    (k : List Char) (t : Nat)
    (hnd : (m.map Prod.fst).Nodup)
    (hne : ∀ p ∈ m, p.2.callbacks ≠ [])
    (honly : ∀ p ∈ m, ∀ q ∈ p.2.callbacks, q.1 = t → p.1 = k)
    (hget : (alistGet m k).isSome) :
    subsDelete m k t = regEraseToks [t] m := by
  induction m with
  | nil => simp [alistGet] at hget
  | cons p rest ih =>
    obtain ⟨k', sub⟩ := p
    rcases List.nodup_cons.mp hnd with ⟨hkNotin, hndRest⟩
    by_cases hk : k' = k
    · subst hk
      have hrestNo : ∀ p' ∈ rest, ∀ q ∈ p'.2.callbacks, q.1 ∉ [t] := by
        intro p' hp' q hq
        simp only [List.mem_singleton]
        intro hqt
        have he := honly p' (List.mem_cons_of_mem _ hp') q hq hqt
        exact hkNotin (by rw [← he]; exact List.mem_map.mpr ⟨p', hp', rfl⟩)
      have hrest_id : regEraseToks [t] rest = rest :=
        regEraseToks_id [t] rest hrestNo
          (fun p' hp' => hne p' (List.mem_cons_of_mem _ hp'))
      rw [subsDelete_present _ _ _ sub (by simp [alistGet]),
        regEraseToks_cons, ← filter_key_ne_eq, hrest_id]
      by_cases hemp : ((sub.callbacks.filter fun q => q.1 ≠ t).isEmpty : Prop)
      · rw [if_pos hemp, if_pos hemp]
        simp only [alistDelete, List.filter_cons]
        rw [if_neg (by simp)]
        refine List.filter_eq_self.mpr fun p' hp' => ?_
        simp only [ne_eq, decide_eq_true_eq]
        intro he
        exact hkNotin (by rw [← he]; exact List.mem_map.mpr ⟨p', hp', rfl⟩)
      · rw [if_neg hemp, if_neg hemp]
        simp [alistSet]
    · have hheadFil : (sub.callbacks.filter fun q => q.1 ∉ [t])
          = sub.callbacks :=
        List.filter_eq_self.mpr fun q hq => by
          simp only [List.mem_singleton, decide_eq_true_eq]
          intro hqt
          exact hk (honly (k', sub) (List.mem_cons_self _ _) q hq hqt)
      have hheadNe : ¬ ((sub.callbacks.filter fun q => q.1 ∉ [t]).isEmpty : Prop) := by
        rw [hheadFil]
        simpa using hne (k', sub) (List.mem_cons_self _ _)
      have hgetRest : (alistGet rest k).isSome := by
        simpa [alistGet, hk] using hget
      have ihr := ih hndRest
        (fun p' hp' => hne p' (List.mem_cons_of_mem _ hp'))
        (fun p' hp' => honly p' (List.mem_cons_of_mem _ hp')) hgetRest
      rcases Option.isSome_iff_exists.mp hgetRest with ⟨sub0, hsub0⟩
      have hstep : subsDelete ((k', sub) :: rest) k t
          = (k', sub) :: subsDelete rest k t := by
        rw [subsDelete_present _ _ _ sub0 (by simp [alistGet, hk, hsub0]),
          subsDelete_present _ _ _ sub0 hsub0]
        by_cases hemp : ((sub0.callbacks.filter fun q => q.1 ≠ t).isEmpty : Prop)
        · rw [if_pos hemp, if_pos hemp]
          simp only [alistDelete, List.filter_cons]
          rw [if_pos (by simp [hk])]
        · rw [if_neg hemp, if_neg hemp]
          simp only [alistSet]
          rw [if_neg hk]
      rw [hstep, ihr, regEraseToks_cons, if_neg hheadNe, hheadFil]

/-- Erasing tokens that occur in none of the scope sets changes nothing. -/
theorem sciEraseToks_id (ts : List Nat) (m : List (Option Nat × List Nat))
    (h : ∀ p ∈ m, ∀ x ∈ p.2, x ∉ ts) :
    sciEraseToks ts m = m := by
  induction m with
  | nil => rfl
  | cons p rest ih =>
    have hp : p.2.filter (fun x => x ∉ ts) = p.2 :=
      List.filter_eq_self.mpr fun x hx => by
        simpa using h p (List.mem_cons_self p rest) x hx
    rw [sciEraseToks_cons, hp, ih fun p' hp' => h p' (List.mem_cons_of_mem _ hp')]

/-- `scopeSubscriptionTokens.delete` for one token equals the never-pruning
scope-index erase, provided scope keys are unique and the token occurs only
under its own scope. -/
theorem scopeTokensDelete_eq_sciEraseToks (m : List (Option Nat × List Nat))
    (sc : Option Nat) (t : Nat)
    (hnd : (m.map Prod.fst).Nodup)
    (honly : ∀ p ∈ m, t ∈ p.2 → p.1 = sc) :
    scopeTokensDelete m sc t = sciEraseToks [t] m := by
  induction m with
  | nil => rfl
  | cons p rest ih =>
    obtain ⟨sc', ts0⟩ := p
    rcases List.nodup_cons.mp hnd with ⟨hscNotin, hndRest⟩
    by_cases hsc : sc' = sc
    · subst hsc
      have hrest_id : sciEraseToks [t] rest = rest :=
        sciEraseToks_id [t] rest fun p' hp' x hx => by
          simp only [List.mem_singleton]
          intro hxt
          have he := honly p' (List.mem_cons_of_mem _ hp') (hxt ▸ hx)
          exact hscNotin (by rw [← he]; exact List.mem_map.mpr ⟨p', hp', rfl⟩)
      have hget : alistGet ((sc', ts0) :: rest) sc' = some ts0 := by
        simp [alistGet]
      unfold scopeTokensDelete
      rw [hget, sciEraseToks_cons, hrest_id, ← setDelete_eq_filter_not_mem]
      simp [alistSet]
    · have hheadNo : t ∉ ts0 := fun ht =>
        hsc (honly (sc', ts0) (List.mem_cons_self _ _) ht)
      have hheadFil : ts0.filter (fun x => x ∉ [t]) = ts0 :=
        List.filter_eq_self.mpr fun x hx => by
          simp only [List.mem_singleton, decide_eq_true_eq]
          intro hxt
          exact hheadNo (hxt ▸ hx)
      have ihr := ih hndRest fun p' hp' => honly p' (List.mem_cons_of_mem _ hp')
      have hstep : scopeTokensDelete ((sc', ts0) :: rest) sc t
          = (sc', ts0) :: scopeTokensDelete rest sc t := by
        unfold scopeTokensDelete
        cases hg : alistGet rest sc with
        | none => rw [show alistGet ((sc', ts0) :: rest) sc = none by
            simp [alistGet, hsc, hg]]
        | some ts1 =>
          rw [show alistGet ((sc', ts0) :: rest) sc = some ts1 by
            simp [alistGet, hsc, hg]]
          show alistSet ((sc', ts0) :: rest) sc (setDelete ts1 t)
            = (sc', ts0) :: alistSet rest sc (setDelete ts1 t)
          simp only [alistSet]
          rw [if_neg hsc]
      rw [hstep, ihr, sciEraseToks_cons, hheadFil]

/-- Inner erase over a callback's key-map, written out. -/
def kmEraseToks (ts : List Nat) (km : List (List Char × List Nat)) :
    List (List Char × List Nat) :=
  km.filterMap fun q =>
    let ts' := q.2.filter fun x => x ∉ ts
    if ts'.isEmpty then none else some (q.1, ts')

theorem kmEraseToks_def (ts : List Nat) (km : List (List Char × List Nat)) :
    kmEraseToks ts km
      = km.filterMap fun q =>
          let ts' := q.2.filter fun x => x ∉ ts
          if ts'.isEmpty then none else some (q.1, ts') := rfl

theorem cbiEraseToks_eq_kmEraseToks (ts : List Nat)
    (m : List (Fn × List (List Char × List Nat))) :
    cbiEraseToks ts m
      = m.filterMap fun p =>
          if (kmEraseToks ts p.2).isEmpty then none
          else some (p.1, kmEraseToks ts p.2) := rfl

theorem kmEraseToks_cons (ts : List Nat) (q : List Char × List Nat)
    (rest : List (List Char × List Nat)) :
    kmEraseToks ts (q :: rest)
      = if (q.2.filter fun x => x ∉ ts).isEmpty
        then kmEraseToks ts rest
        else (q.1, q.2.filter fun x => x ∉ ts) :: kmEraseToks ts rest := by
  by_cases h : ((q.2.filter fun x => x ∉ ts).isEmpty : Prop)
  · rw [if_pos h]
    simp only [kmEraseToks, List.filterMap_cons, if_pos h]
  · rw [if_neg h]
    simp only [kmEraseToks, List.filterMap_cons, if_neg h]

theorem kmEraseToks_id (ts : List Nat) (km : List (List Char × List Nat))
    (h : ∀ q ∈ km, ∀ x ∈ q.2, x ∉ ts)
    (hNE : ∀ q ∈ km, q.2 ≠ []) :
    kmEraseToks ts km = km := by
  induction km with
  | nil => rfl
  | cons q rest ih =>
    have hfil : (q.2.filter fun x => x ∉ ts) = q.2 :=
      List.filter_eq_self.mpr fun x hx => by
        simpa using h q (List.mem_cons_self q rest) x hx
    have hemp : ¬ ((q.2.filter fun x => x ∉ ts).isEmpty : Prop) := by
      rw [hfil]
      simpa using hNE q (List.mem_cons_self q rest)
    rw [kmEraseToks_cons, if_neg hemp, hfil,
      ih (fun q' hq' => h q' (List.mem_cons_of_mem _ hq'))
        (fun q' hq' => hNE q' (List.mem_cons_of_mem _ hq'))]

theorem cbiEraseToks_id (ts : List Nat)
    (m : List (Fn × List (List Char × List Nat)))
    (h : ∀ p ∈ m, ∀ q ∈ p.2, ∀ x ∈ q.2, x ∉ ts)
    (hNE : ∀ p ∈ m, p.2 ≠ [])
    (hInnerNE : ∀ p ∈ m, ∀ q ∈ p.2, q.2 ≠ []) :
    cbiEraseToks ts m = m := by
  induction m with
  | nil => rfl
  | cons p rest ih =>
    have hkm : kmEraseToks ts p.2 = p.2 :=
      kmEraseToks_id ts p.2 (h p (List.mem_cons_self p rest))
        (hInnerNE p (List.mem_cons_self p rest))
    have hemp : ¬ ((kmEraseToks ts p.2).isEmpty : Prop) := by
      rw [hkm]
      simpa using hNE p (List.mem_cons_self p rest)
    rw [cbiEraseToks_cons, ← kmEraseToks_def, if_neg hemp, hkm,
      ih (fun p' hp' => h p' (List.mem_cons_of_mem _ hp'))
        (fun p' hp' => hNE p' (List.mem_cons_of_mem _ hp'))
        (fun p' hp' => hInnerNE p' (List.mem_cons_of_mem _ hp'))]

/-- The inner update `callbackSubscriptionTokens.delete` performs on one
callback's key-map equals the inner one-token erase, provided inner keys are
unique, inner sets are nonempty and the token occurs only under `k`. -/
theorem kmDelete_eq_kmEraseToks (km : List (List Char × List Nat))
    (k : List Char) (t : Nat)
    (hnd : (km.map Prod.fst).Nodup)
    (hNE : ∀ q ∈ km, q.2 ≠ [])
    (honly : ∀ q ∈ km, t ∈ q.2 → q.1 = k) :
    (match alistGet km k with
     | none => km
     | some ts => if (setDelete ts t).isEmpty then alistDelete km k
                  else alistSet km k (setDelete ts t))
      = kmEraseToks [t] km := by
  induction km with
  | nil => rfl
  | cons q rest ih =>
    obtain ⟨k', ts0⟩ := q
    rcases List.nodup_cons.mp hnd with ⟨hkNotin, hndRest⟩
    by_cases hk : k' = k
    · subst hk
      have hrest_id : kmEraseToks [t] rest = rest :=
        kmEraseToks_id [t] rest
          (fun q' hq' x hx => by
            simp only [List.mem_singleton]
            intro hxt
            have he := honly q' (List.mem_cons_of_mem _ hq') (hxt ▸ hx)
            exact hkNotin (by rw [← he]; exact List.mem_map.mpr ⟨q', hq', rfl⟩))
          (fun q' hq' => hNE q' (List.mem_cons_of_mem _ hq'))
      rw [show alistGet ((k', ts0) :: rest) k' = some ts0 by simp [alistGet]]
      rw [kmEraseToks_cons, ← setDelete_eq_filter_not_mem, hrest_id]
      dsimp only
      by_cases hemp : ((setDelete ts0 t).isEmpty : Prop)
      · rw [if_pos hemp, if_pos hemp]
        simp only [alistDelete, List.filter_cons]
        rw [if_neg (by simp)]
        refine List.filter_eq_self.mpr fun q' hq' => ?_
        simp only [ne_eq, decide_eq_true_eq]
        intro he
        exact hkNotin (by rw [← he]; exact List.mem_map.mpr ⟨q', hq', rfl⟩)
      · rw [if_neg hemp, if_neg hemp]
        simp only [alistSet]
        rw [if_true]
    · have hheadNo : t ∉ ts0 := fun ht =>
        hk (honly (k', ts0) (List.mem_cons_self _ _) ht)
      have hheadFil : ts0.filter (fun x => x ∉ [t]) = ts0 :=
        List.filter_eq_self.mpr fun x hx => by
          simp only [List.mem_singleton, decide_eq_true_eq]
          intro hxt
          exact hheadNo (hxt ▸ hx)
      have hheadNe : ¬ ((ts0.filter fun x => x ∉ [t]).isEmpty : Prop) := by
        rw [hheadFil]
        simpa using hNE (k', ts0) (List.mem_cons_self _ _)
      have ihr := ih hndRest (fun q' hq' => hNE q' (List.mem_cons_of_mem _ hq'))
        (fun q' hq' => honly q' (List.mem_cons_of_mem _ hq'))
      have hstep :
          (match alistGet ((k', ts0) :: rest) k with
           | none => (k', ts0) :: rest
           | some ts => if (setDelete ts t).isEmpty
                        then alistDelete ((k', ts0) :: rest) k
                        else alistSet ((k', ts0) :: rest) k (setDelete ts t))
            = (k', ts0) ::
              (match alistGet rest k with
               | none => rest
               | some ts => if (setDelete ts t).isEmpty then alistDelete rest k
                            else alistSet rest k (setDelete ts t)) := by
        cases hg : alistGet rest k with
        | none =>
          rw [show alistGet ((k', ts0) :: rest) k = none by
            simp [alistGet, hk, hg]]
        | some ts1 =>
          rw [show alistGet ((k', ts0) :: rest) k = some ts1 by
            simp [alistGet, hk, hg]]
          dsimp only
          by_cases hemp : ((setDelete ts1 t).isEmpty : Prop)
          · rw [if_pos hemp, if_pos hemp]
            simp only [alistDelete, List.filter_cons]
            rw [if_pos (by simp [hk])]
          · rw [if_neg hemp, if_neg hemp]
            simp only [alistSet]
            rw [if_neg hk]
      rw [hstep, ihr, kmEraseToks_cons]
      dsimp only
      rw [if_neg hheadNe, hheadFil]

/-- Evaluation of `callbackSubscriptionTokens.delete` when the callback is
present. -/
theorem cbTokensDelete_present (m : List (Fn × List (List Char × List Nat)))
    (g : Fn) (k : List Char) (t : Nat) (km : List (List Char × List Nat))
    (h : alistGet m g = some km) :
    cbTokensDelete m g k t
      = (let km' :=
           match alistGet km k with
           | none => km
           | some ts => if (setDelete ts t).isEmpty then alistDelete km k
                        else alistSet km k (setDelete ts t)
         if km'.isEmpty then alistDelete m g else alistSet m g km') := by
  unfold cbTokensDelete
  rw [h]

/-- Evaluation of `callbackSubscriptionTokens.delete` when the callback is
absent. -/
theorem cbTokensDelete_absent (m : List (Fn × List (List Char × List Nat)))
    (g : Fn) (k : List Char) (t : Nat) (h : alistGet m g = none) :
    cbTokensDelete m g k t = m := by
  unfold cbTokensDelete
  rw [h]

/-- `callbackSubscriptionTokens.delete` for one token equals erasing that
token everywhere in the callback index, provided keys are unique at both
levels, maps and sets are nonempty, and the token occurs only under
`(g, k)`. -/
theorem cbTokensDelete_eq_cbiEraseToks
    (m : List (Fn × List (List Char × List Nat))) (g : Fn) (k : List Char)
    (t : Nat)
    (hnd : (m.map Prod.fst).Nodup)
    (hNE : ∀ p ∈ m, p.2 ≠ [])
    (hInnerNd : ∀ p ∈ m, (p.2.map Prod.fst).Nodup)
    (hInnerNE : ∀ p ∈ m, ∀ q ∈ p.2, q.2 ≠ [])
    (honly : ∀ p ∈ m, ∀ q ∈ p.2, t ∈ q.2 → p.1 = g ∧ q.1 = k) :
    cbTokensDelete m g k t = cbiEraseToks [t] m := by
  induction m with
  | nil => rfl
  | cons p rest ih =>
    obtain ⟨g', km0⟩ := p
    rcases List.nodup_cons.mp hnd with ⟨hgNotin, hndRest⟩
    by_cases hg : g' = g
    · subst hg
      have hrest_id : cbiEraseToks [t] rest = rest :=
        cbiEraseToks_id [t] rest
          (fun p' hp' q' hq' x hx => by
            simp only [List.mem_singleton]
            intro hxt
            have he := (honly p' (List.mem_cons_of_mem _ hp') q' hq'
              (hxt ▸ hx)).1
            exact hgNotin (by rw [← he]; exact List.mem_map.mpr ⟨p', hp', rfl⟩))
          (fun p' hp' => hNE p' (List.mem_cons_of_mem _ hp'))
          (fun p' hp' => hInnerNE p' (List.mem_cons_of_mem _ hp'))
      have hkm : (match alistGet km0 k with
           | none => km0
           | some ts => if (setDelete ts t).isEmpty then alistDelete km0 k
                        else alistSet km0 k (setDelete ts t))
          = kmEraseToks [t] km0 :=
        kmDelete_eq_kmEraseToks km0 k t
          (hInnerNd (g', km0) (List.mem_cons_self _ _))
          (hInnerNE (g', km0) (List.mem_cons_self _ _))
          (fun q' hq' ht =>
            (honly (g', km0) (List.mem_cons_self _ _) q' hq' ht).2)
      rw [cbTokensDelete_present _ _ _ _ km0 (by simp [alistGet])]
      dsimp only
      rw [hkm]
      rw [cbiEraseToks_cons, ← kmEraseToks_def, hrest_id]
      dsimp only
      by_cases hemp : ((kmEraseToks [t] km0).isEmpty : Prop)
      · rw [if_pos hemp, if_pos hemp]
        simp only [alistDelete, List.filter_cons]
        rw [if_neg (by simp)]
        refine List.filter_eq_self.mpr fun p' hp' => ?_
        simp only [ne_eq, decide_eq_true_eq]
        intro he
        exact hgNotin (by rw [← he]; exact List.mem_map.mpr ⟨p', hp', rfl⟩)
      · rw [if_neg hemp, if_neg hemp]
        simp only [alistSet]
        rw [if_true]
    · have hheadNo : ∀ q ∈ km0, ∀ x ∈ q.2, x ∉ [t] := by
        intro q' hq' x hx
        simp only [List.mem_singleton]
        intro hxt
        exact hg (honly (g', km0) (List.mem_cons_self _ _) q' hq'
          (hxt ▸ hx)).1
      have hheadKm : kmEraseToks [t] km0 = km0 :=
        kmEraseToks_id [t] km0 hheadNo
          (hInnerNE (g', km0) (List.mem_cons_self _ _))
      have hheadNe : ¬ ((kmEraseToks [t] km0).isEmpty : Prop) := by
        rw [hheadKm]
        simpa using hNE (g', km0) (List.mem_cons_self _ _)
      have ihr := ih hndRest
        (fun p' hp' => hNE p' (List.mem_cons_of_mem _ hp'))
        (fun p' hp' => hInnerNd p' (List.mem_cons_of_mem _ hp'))
        (fun p' hp' => hInnerNE p' (List.mem_cons_of_mem _ hp'))
        (fun p' hp' => honly p' (List.mem_cons_of_mem _ hp'))
      have hstep : cbTokensDelete ((g', km0) :: rest) g k t
          = (g', km0) :: cbTokensDelete rest g k t := by
        cases hgg : alistGet rest g with
        | none =>
          rw [cbTokensDelete_absent _ _ _ _ (by simp [alistGet, hg, hgg]),
            cbTokensDelete_absent _ _ _ _ hgg]
        | some km1 =>
          rw [cbTokensDelete_present _ _ _ _ km1 (by simp [alistGet, hg, hgg]),
            cbTokensDelete_present _ _ _ _ km1 hgg]
          dsimp only
          by_cases hemp : ((match alistGet km1 k with
              | none => km1
              | some ts => if (setDelete ts t).isEmpty then alistDelete km1 k
                           else alistSet km1 k (setDelete ts t)).isEmpty : Prop)
          · rw [if_pos hemp, if_pos hemp]
            simp only [alistDelete, List.filter_cons]
            rw [if_pos (by simp [hg])]
          · rw [if_neg hemp, if_neg hemp]
            simp only [alistSet]
            rw [if_neg hg]
      rw [hstep, ihr, cbiEraseToks_cons, ← kmEraseToks_def]
      dsimp only
      rw [if_neg hheadNe, hheadKm]

/-! ### Characterizing the erased stores -/

theorem mem_regEraseToks (ts : List Nat) (m : List (List Char × Subscription))
    (p' : List Char × Subscription) :
    p' ∈ regEraseToks ts m
      ↔ ∃ p ∈ m, ¬ ((p.2.callbacks.filter fun q => q.1 ∉ ts).isEmpty : Prop)
          ∧ p' = (p.1, ⟨p.2.subscriptionPattern,
              p.2.callbacks.filter fun q => q.1 ∉ ts⟩) := by
  constructor
  · intro h
    rcases List.mem_filterMap.mp h with ⟨p, hp, hfp⟩
    by_cases hc : ((p.2.callbacks.filter fun q => q.1 ∉ ts).isEmpty : Prop)
    · rw [if_pos hc] at hfp
      cases hfp
    · rw [if_neg hc] at hfp
      exact ⟨p, hp, hc, (Option.some_inj.mp hfp).symm⟩
  · rintro ⟨p, hp, hc, rfl⟩
    exact List.mem_filterMap.mpr ⟨p, hp, by rw [if_neg hc]⟩

theorem mem_kmEraseToks (ts : List Nat) (km : List (List Char × List Nat))
    (q' : List Char × List Nat) :
    q' ∈ kmEraseToks ts km
      ↔ ∃ q ∈ km, ¬ ((q.2.filter fun x => x ∉ ts).isEmpty : Prop)
          ∧ q' = (q.1, q.2.filter fun x => x ∉ ts) := by
  constructor
  · intro h
    rcases List.mem_filterMap.mp h with ⟨q, hq, hfq⟩
    by_cases hc : ((q.2.filter fun x => x ∉ ts).isEmpty : Prop)
    · rw [if_pos hc] at hfq
      cases hfq
    · rw [if_neg hc] at hfq
      exact ⟨q, hq, hc, (Option.some_inj.mp hfq).symm⟩
  · rintro ⟨q, hq, hc, rfl⟩
    exact List.mem_filterMap.mpr ⟨q, hq, by rw [if_neg hc]⟩

theorem mem_cbiEraseToks (ts : List Nat)
    (m : List (Fn × List (List Char × List Nat)))
    (p' : Fn × List (List Char × List Nat)) :
    p' ∈ cbiEraseToks ts m
      ↔ ∃ p ∈ m, ¬ ((kmEraseToks ts p.2).isEmpty : Prop)
          ∧ p' = (p.1, kmEraseToks ts p.2) := by
  rw [cbiEraseToks_eq_kmEraseToks]
  constructor
  · intro h
    rcases List.mem_filterMap.mp h with ⟨p, hp, hfp⟩
    by_cases hc : ((kmEraseToks ts p.2).isEmpty : Prop)
    · rw [if_pos hc] at hfp
      cases hfp
    · rw [if_neg hc] at hfp
      exact ⟨p, hp, hc, (Option.some_inj.mp hfp).symm⟩
  · rintro ⟨p, hp, hc, rfl⟩
    exact List.mem_filterMap.mpr ⟨p, hp, by rw [if_neg hc]⟩

theorem mem_sciEraseToks (ts : List Nat) (m : List (Option Nat × List Nat))
    (p' : Option Nat × List Nat) :
    p' ∈ sciEraseToks ts m
      ↔ ∃ p ∈ m, p' = (p.1, p.2.filter fun x => x ∉ ts) := by
  simp only [sciEraseToks, List.mem_map]
  constructor
  · rintro ⟨p, hp, rfl⟩
    exact ⟨p, hp, rfl⟩
  · rintro ⟨p, hp, rfl⟩
    exact ⟨p, hp, rfl⟩

theorem regEraseToks_keys_sublist (ts : List Nat)
    (m : List (List Char × Subscription)) :
    ((regEraseToks ts m).map Prod.fst).Sublist (m.map Prod.fst) := by
  induction m with
  | nil => simp [regEraseToks]
  | cons p rest ih =>
    rw [regEraseToks_cons]
    by_cases hc : ((p.2.callbacks.filter fun q => q.1 ∉ ts).isEmpty : Prop)
    · rw [if_pos hc]
      exact ih.cons p.1
    · rw [if_neg hc]
      simpa using ih.cons₂ p.1

theorem kmEraseToks_keys_sublist (ts : List Nat)
    (km : List (List Char × List Nat)) :
    ((kmEraseToks ts km).map Prod.fst).Sublist (km.map Prod.fst) := by
  induction km with
  | nil => simp [kmEraseToks]
  | cons q rest ih =>
    rw [kmEraseToks_cons]
    by_cases hc : ((q.2.filter fun x => x ∉ ts).isEmpty : Prop)
    · rw [if_pos hc]
      exact ih.cons q.1
    · rw [if_neg hc]
      simpa using ih.cons₂ q.1

theorem cbiEraseToks_keys_sublist (ts : List Nat)
    (m : List (Fn × List (List Char × List Nat))) :
    ((cbiEraseToks ts m).map Prod.fst).Sublist (m.map Prod.fst) := by
  induction m with
  | nil => simp [cbiEraseToks]
  | cons p rest ih =>
    rw [cbiEraseToks_cons, ← kmEraseToks_def]
    by_cases hc : ((kmEraseToks ts p.2).isEmpty : Prop)
    · rw [if_pos hc]
      exact ih.cons p.1
    · rw [if_neg hc]
      simpa using ih.cons₂ p.1

theorem sciEraseToks_keys (ts : List Nat) (m : List (Option Nat × List Nat)) :
    (sciEraseToks ts m).map Prod.fst = m.map Prod.fst := by
  induction m with
  | nil => rfl
  | cons p rest ih => simp [sciEraseToks_cons, ih]

theorem alistGet_regEraseToks_none (ts : List Nat)
    (m : List (List Char × Subscription)) (k : List Char)
    (h : alistGet m k = none) :
    alistGet (regEraseToks ts m) k = none := by
  induction m with
  | nil => rfl
  | cons p rest ih =>
    have hk : ¬ p.1 = k := by
      intro he
      simp [alistGet, he] at h
    have hrest : alistGet rest k = none := by
      simpa [alistGet, hk] using h
    rw [regEraseToks_cons]
    by_cases hc : ((p.2.callbacks.filter fun q => q.1 ∉ ts).isEmpty : Prop)
    · rw [if_pos hc]
      exact ih hrest
    · rw [if_neg hc]
      simp only [alistGet]
      rw [if_neg hk]
      exact ih hrest

theorem alistGet_regEraseToks (ts : List Nat)
    (m : List (List Char × Subscription)) (k : List Char) (sub : Subscription)
    (hnd : (m.map Prod.fst).Nodup) (h : alistGet m k = some sub) :
    alistGet (regEraseToks ts m) k
      = if (sub.callbacks.filter fun q => q.1 ∉ ts).isEmpty then none
        else some ⟨sub.subscriptionPattern,
          sub.callbacks.filter fun q => q.1 ∉ ts⟩ := by
  induction m with
  | nil => simp [alistGet] at h
  | cons p rest ih =>
    rcases List.nodup_cons.mp hnd with ⟨hkNotin, hndRest⟩
    by_cases hk : p.1 = k
    · have hsub : p.2 = sub := by
        simpa [alistGet, hk] using h
      have hrestNone : alistGet rest k = none := by
        cases hg : alistGet rest k with
        | none => rfl
        | some v =>
          have hmem : p.1 ∈ List.map Prod.fst rest := by
            rw [hk]
            exact List.mem_map.mpr ⟨(k, v), mem_of_alistGet _ _ _ hg, rfl⟩
          exact absurd hmem hkNotin
      rw [regEraseToks_cons, hsub]
      by_cases hc : ((sub.callbacks.filter fun q => q.1 ∉ ts).isEmpty : Prop)
      · rw [if_pos hc, if_pos hc]
        exact alistGet_regEraseToks_none ts rest k hrestNone
      · rw [if_neg hc, if_neg hc]
        simp [alistGet, hk]
    · have hrest : alistGet rest k = some sub := by
        simpa [alistGet, hk] using h
      rw [regEraseToks_cons]
      by_cases hc : ((p.2.callbacks.filter fun q => q.1 ∉ ts).isEmpty : Prop)
      · rw [if_pos hc]
        exact ih hndRest hrest
      · rw [if_neg hc]
        simp only [alistGet]
        rw [if_neg hk]
        exact ih hndRest hrest

theorem alistGet_kmEraseToks_none (ts : List Nat)
    (km : List (List Char × List Nat)) (k : List Char)
    (h : alistGet km k = none) :
    alistGet (kmEraseToks ts km) k = none := by
  induction km with
  | nil => rfl
  | cons q rest ih =>
    have hk : ¬ q.1 = k := by
      intro he
      simp [alistGet, he] at h
    have hrest : alistGet rest k = none := by
      simpa [alistGet, hk] using h
    rw [kmEraseToks_cons]
    by_cases hc : ((q.2.filter fun x => x ∉ ts).isEmpty : Prop)
    · rw [if_pos hc]
      exact ih hrest
    · rw [if_neg hc]
      simp only [alistGet]
      rw [if_neg hk]
      exact ih hrest

theorem alistGet_kmEraseToks (ts : List Nat)
    (km : List (List Char × List Nat)) (k : List Char) (ts0 : List Nat)
    (hnd : (km.map Prod.fst).Nodup) (h : alistGet km k = some ts0) :
    alistGet (kmEraseToks ts km) k
      = if (ts0.filter fun x => x ∉ ts).isEmpty then none
        else some (ts0.filter fun x => x ∉ ts) := by
  induction km with
  | nil => simp [alistGet] at h
  | cons q rest ih =>
    rcases List.nodup_cons.mp hnd with ⟨hkNotin, hndRest⟩
    by_cases hk : q.1 = k
    · have hts : q.2 = ts0 := by
        simpa [alistGet, hk] using h
      have hrestNone : alistGet rest k = none := by
        cases hg : alistGet rest k with
        | none => rfl
        | some v =>
          have hmem : q.1 ∈ List.map Prod.fst rest := by
            rw [hk]
            exact List.mem_map.mpr ⟨(k, v), mem_of_alistGet _ _ _ hg, rfl⟩
          exact absurd hmem hkNotin
      rw [kmEraseToks_cons, hts]
      by_cases hc : ((ts0.filter fun x => x ∉ ts).isEmpty : Prop)
      · rw [if_pos hc, if_pos hc]
        exact alistGet_kmEraseToks_none ts rest k hrestNone
      · rw [if_neg hc, if_neg hc]
        simp [alistGet, hk]
    · have hrest : alistGet rest k = some ts0 := by
        simpa [alistGet, hk] using h
      rw [kmEraseToks_cons]
      by_cases hc : ((q.2.filter fun x => x ∉ ts).isEmpty : Prop)
      · rw [if_pos hc]
        exact ih hndRest hrest
      · rw [if_neg hc]
        simp only [alistGet]
        rw [if_neg hk]
        exact ih hndRest hrest

theorem alistGet_cbiEraseToks_none (ts : List Nat)
    (m : List (Fn × List (List Char × List Nat))) (g : Fn)
    (h : alistGet m g = none) :
    alistGet (cbiEraseToks ts m) g = none := by
  induction m with
  | nil => rfl
  | cons p rest ih =>
    have hg : ¬ p.1 = g := by
      intro he
      simp [alistGet, he] at h
    have hrest : alistGet rest g = none := by
      simpa [alistGet, hg] using h
    rw [cbiEraseToks_cons, ← kmEraseToks_def]
    by_cases hc : ((kmEraseToks ts p.2).isEmpty : Prop)
    · rw [if_pos hc]
      exact ih hrest
    · rw [if_neg hc]
      simp only [alistGet]
      rw [if_neg hg]
      exact ih hrest

theorem alistGet_cbiEraseToks (ts : List Nat)
    (m : List (Fn × List (List Char × List Nat))) (g : Fn)
    (km : List (List Char × List Nat))
    (hnd : (m.map Prod.fst).Nodup) (h : alistGet m g = some km) :
    alistGet (cbiEraseToks ts m) g
      = if (kmEraseToks ts km).isEmpty then none
        else some (kmEraseToks ts km) := by
  induction m with
  | nil => simp [alistGet] at h
  | cons p rest ih =>
    rcases List.nodup_cons.mp hnd with ⟨hgNotin, hndRest⟩
    by_cases hg : p.1 = g
    · have hkm : p.2 = km := by
        simpa [alistGet, hg] using h
      have hrestNone : alistGet rest g = none := by
        cases hgg : alistGet rest g with
        | none => rfl
        | some v =>
          have hmem : p.1 ∈ List.map Prod.fst rest := by
            rw [hg]
            exact List.mem_map.mpr ⟨(g, v), mem_of_alistGet _ _ _ hgg, rfl⟩
          exact absurd hmem hgNotin
      rw [cbiEraseToks_cons, ← kmEraseToks_def, hkm]
      by_cases hc : ((kmEraseToks ts km).isEmpty : Prop)
      · rw [if_pos hc, if_pos hc]
        exact alistGet_cbiEraseToks_none ts rest g hrestNone
      · rw [if_neg hc, if_neg hc]
        simp [alistGet, hg]
    · have hrest : alistGet rest g = some km := by
        simpa [alistGet, hg] using h
      rw [cbiEraseToks_cons, ← kmEraseToks_def]
      by_cases hc : ((kmEraseToks ts p.2).isEmpty : Prop)
      · rw [if_pos hc]
        exact ih hndRest hrest
      · rw [if_neg hc]
        simp only [alistGet]
        rw [if_neg hg]
        exact ih hndRest hrest

theorem alistGet_sciEraseToks (ts : List Nat)
    (m : List (Option Nat × List Nat)) (sc : Option Nat) :
    alistGet (sciEraseToks ts m) sc
      = (alistGet m sc).map fun l => l.filter fun x => x ∉ ts := by
  induction m with
  | nil => rfl
  | cons p rest ih =>
    rw [sciEraseToks_cons]
    by_cases hsc : p.1 = sc
    · simp [alistGet, hsc]
    · simp only [alistGet]
      rw [if_neg hsc, if_neg hsc]
      exact ih

/-! ### Invoking one live token -/

theorem envKeyCb_of_regCallbacks (s : PubSubState) (hwf : WF s) (k : List Char)
    (t : Nat) (g : Fn) (hreg : (t, g) ∈ regCallbacks s k) :
    envKeyCb s t = some (k, g) ∧ (alistGet s.subscriptions k).isSome := by
  unfold regCallbacks at hreg
  cases hget : alistGet s.subscriptions k with
  | none =>
    rw [hget] at hreg
    simp at hreg
  | some sub =>
    rw [hget] at hreg
    have hreg' : (t, g) ∈ sub.callbacks := by simpa using hreg
    exact ⟨hwf.regEnv _ (mem_of_alistGet _ _ _ hget) _ hreg', rfl⟩

/-- Invoking a token that is live in the registry removes exactly that token
from the registry and all three indexes and returns `true`. -/
theorem invokeToken_erase (s : PubSubState) (hwf : WF s) (t : Nat)
    (k : List Char) (g : Fn) (hreg : (t, g) ∈ regCallbacks s k) :
    invokeToken s t = (eraseToks [t] s, true) := by
  obtain ⟨henvkc, hksome⟩ := envKeyCb_of_regCallbacks s hwf k t g hreg
  cases henv : alistGet s.tokenEnvs t with
  | none =>
    rw [envKeyCb, henv] at henvkc
    cases henvkc
  | some te =>
    rw [envKeyCb, henv] at henvkc
    have hpair : (te.subscriptionKey, te.callback) = (k, g) := by
      simpa using henvkc
    have hkey : te.subscriptionKey = k := congrArg Prod.fst hpair
    have hcb : te.callback = g := congrArg Prod.snd hpair
    have henvt : envKeyCb s t = some (k, g) := by
      rw [envKeyCb, henv]
      simpa using hpair
    have honlyReg : ∀ p ∈ s.subscriptions, ∀ q ∈ p.2.callbacks,
        q.1 = t → p.1 = k := by
      intro p hp q hq hqt
      have h1 := hwf.regEnv p hp q hq
      rw [hqt, henvt] at h1
      exact congrArg Prod.fst (Option.some_inj.mp h1.symm)
    have honlyCbi : ∀ p ∈ s.callbackSubscriptionTokens, ∀ q ∈ p.2,
        t ∈ q.2 → p.1 = g ∧ q.1 = k := by
      intro p hp q hq ht
      have h1 := hwf.cbiEnv p hp q hq t ht
      rw [henvt] at h1
      have h2 := Option.some_inj.mp h1
      exact ⟨(congrArg Prod.snd h2).symm, (congrArg Prod.fst h2).symm⟩
    have honlySci : ∀ p ∈ s.scopeSubscriptionTokens, t ∈ p.2 →
        p.1 = te.scope := by
      intro p hp ht
      have h1 := hwf.sciEnv p hp t ht
      have h2 : envScope s t = some te.scope := by
        rw [envScope, henv]
        rfl
      rw [h2] at h1
      exact (Option.some_inj.mp h1).symm
    have hsubsD : subsDelete s.subscriptions te.subscriptionKey t
        = regEraseToks [t] s.subscriptions := by
      rw [hkey]
      exact subsDelete_eq_regEraseToks _ _ _ hwf.regKeysNodup hwf.regNE
        honlyReg hksome
    have hcbiD : cbTokensDelete s.callbackSubscriptionTokens te.callback
        te.subscriptionKey t = cbiEraseToks [t] s.callbackSubscriptionTokens := by
      rw [hkey, hcb]
      exact cbTokensDelete_eq_cbiEraseToks _ _ _ _ hwf.cbiKeysNodup hwf.cbiNE
        hwf.cbiInnerKeysNodup hwf.cbiInnerNE honlyCbi
    have hsciD : scopeTokensDelete s.scopeSubscriptionTokens te.scope t
        = sciEraseToks [t] s.scopeSubscriptionTokens :=
      scopeTokensDelete_eq_sciEraseToks _ _ _ hwf.sciKeysNodup honlySci
    obtain ⟨sub, hsub⟩ := Option.isSome_iff_exists.mp hksome
    have hguard : (alistGet s.subscriptions te.subscriptionKey).isNone
        = false := by
      rw [hkey, hsub]
      rfl
    unfold invokeToken
    rw [henv]
    dsimp only
    rw [hguard]
    simp only [Bool.false_eq_true, if_false]
    rw [hsubsD, hcbiD, hsciD, setDelete_eq_filter_not_mem]
    rfl

/-! ### The invariant survives erasing tokens -/

theorem regCallbacks_eraseToks_mem (ts : List Nat) (s : PubSubState)
    (hnd : (s.subscriptions.map Prod.fst).Nodup)
    (k : List Char) (x : Nat) (g : Fn)
    (hx : (x, g) ∈ regCallbacks s k) (hxts : x ∉ ts) :
    (x, g) ∈ regCallbacks (eraseToks ts s) k := by
  unfold regCallbacks at hx ⊢
  cases hget : alistGet s.subscriptions k with
  | none =>
    rw [hget] at hx
    simp at hx
  | some sub =>
    rw [hget] at hx
    have hx' : (x, g) ∈ sub.callbacks := by simpa using hx
    have hmemF : (x, g) ∈ sub.callbacks.filter fun q => q.1 ∉ ts :=
      List.mem_filter.mpr ⟨hx', by simpa using hxts⟩
    have hne : ¬ ((sub.callbacks.filter fun q => q.1 ∉ ts).isEmpty : Prop) := by
      intro hc
      rw [List.isEmpty_iff] at hc
      rw [hc] at hmemF
      cases hmemF
    have hre := alistGet_regEraseToks ts s.subscriptions k sub hnd hget
    rw [if_neg hne] at hre
    rw [show (eraseToks ts s).subscriptions = regEraseToks ts s.subscriptions
      from rfl, hre]
    simpa using hmemF

theorem cbiTokens_eraseToks_mem (ts : List Nat) (s : PubSubState)
    (hnd : (s.callbackSubscriptionTokens.map Prod.fst).Nodup)
    (hInnerNd : ∀ p ∈ s.callbackSubscriptionTokens, (p.2.map Prod.fst).Nodup)
    (g : Fn) (k : List Char) (x : Nat)
    (hx : x ∈ cbiTokens s g k) (hxts : x ∉ ts) :
    x ∈ cbiTokens (eraseToks ts s) g k := by
  unfold cbiTokens at hx ⊢
  cases hget : alistGet s.callbackSubscriptionTokens g with
  | none =>
    rw [hget] at hx
    simp at hx
  | some km =>
    rw [hget] at hx
    simp only [Option.some_bind] at hx
    cases hget2 : alistGet km k with
    | none =>
      rw [hget2] at hx
      simp at hx
    | some ts0 =>
      rw [hget2] at hx
      have hx' : x ∈ ts0 := by simpa using hx
      have hmemF : x ∈ ts0.filter fun y => y ∉ ts :=
        List.mem_filter.mpr ⟨hx', by simpa using hxts⟩
      have hneInner : ¬ ((ts0.filter fun y => y ∉ ts).isEmpty : Prop) := by
        intro hc
        rw [List.isEmpty_iff] at hc
        rw [hc] at hmemF
        cases hmemF
      have hkm := alistGet_kmEraseToks ts km k ts0
        (hInnerNd _ (mem_of_alistGet _ _ _ hget)) hget2
      rw [if_neg hneInner] at hkm
      have hneKm : ¬ ((kmEraseToks ts km).isEmpty : Prop) := by
        intro hc
        rw [List.isEmpty_iff] at hc
        rw [hc] at hkm
        simp [alistGet] at hkm
      have hcbi := alistGet_cbiEraseToks ts s.callbackSubscriptionTokens g km
        hnd hget
      rw [if_neg hneKm] at hcbi
      rw [show (eraseToks ts s).callbackSubscriptionTokens
        = cbiEraseToks ts s.callbackSubscriptionTokens from rfl, hcbi]
      simp only [Option.some_bind, hkm]
      simpa using hmemF

theorem reg_exists_eraseToks (ts : List Nat) (s : PubSubState) (t : Nat)
    (hex : ∃ p ∈ s.subscriptions, ∃ q ∈ p.2.callbacks, q.1 = t)
    (hts : t ∉ ts) :
    ∃ p ∈ (eraseToks ts s).subscriptions, ∃ q ∈ p.2.callbacks, q.1 = t := by
  rcases hex with ⟨p, hp, q, hq, rfl⟩
  have hqF : q ∈ p.2.callbacks.filter fun q' => q'.1 ∉ ts :=
    List.mem_filter.mpr ⟨hq, by simpa using hts⟩
  have hcne : ¬ ((p.2.callbacks.filter fun q' => q'.1 ∉ ts).isEmpty : Prop) := by
    intro hc
    rw [List.isEmpty_iff] at hc
    rw [hc] at hqF
    cases hqF
  exact ⟨(p.1, ⟨p.2.subscriptionPattern,
      p.2.callbacks.filter fun q' => q'.1 ∉ ts⟩),
    (mem_regEraseToks ts _ _).mpr ⟨p, hp, hcne, rfl⟩, q, hqF, rfl⟩

/-- Erasing any set of tokens preserves well-formedness. -/
theorem WF_eraseToks (ts : List Nat) (s : PubSubState) (hwf : WF s) :
    WF (eraseToks ts s) := by
  refine ⟨?_, ?_, ?_, ?_, ?_, ?_, ?_, ?_, ?_, ?_, ?_, ?_, ?_, ?_, ?_, ?_, ?_, ?_⟩
  · exact List.Nodup.sublist (regEraseToks_keys_sublist ts _) hwf.regKeysNodup
  · intro p hp
    rcases (mem_regEraseToks ts _ _).mp hp with ⟨p0, _, hc, rfl⟩
    dsimp only
    intro hnil
    exact hc (by rw [hnil]; rfl)
  · intro p hp q hq
    rcases (mem_regEraseToks ts _ _).mp hp with ⟨p0, hp0, _, rfl⟩
    exact hwf.regEnv p0 hp0 q (List.mem_filter.mp hq).1
  · intro p hp q hq
    rcases (mem_regEraseToks ts _ _).mp hp with ⟨p0, hp0, _, rfl⟩
    rcases List.mem_filter.mp hq with ⟨hq0, hqts⟩
    exact cbiTokens_eraseToks_mem ts s hwf.cbiKeysNodup hwf.cbiInnerKeysNodup
      _ _ _ (hwf.regCbi p0 hp0 q hq0) (by simpa using hqts)
  · intro p hp q hq
    rcases (mem_regEraseToks ts _ _).mp hp with ⟨p0, hp0, _, rfl⟩
    rcases List.mem_filter.mp hq with ⟨hq0, hqts⟩
    exact List.mem_filter.mpr ⟨hwf.regToks p0 hp0 q hq0, hqts⟩
  · exact hwf.toksNodup.filter _
  · intro t ht
    rcases List.mem_filter.mp ht with ⟨ht0, hts⟩
    exact reg_exists_eraseToks ts s t (hwf.toksReg t ht0) (by simpa using hts)
  · exact List.Nodup.sublist (cbiEraseToks_keys_sublist ts _) hwf.cbiKeysNodup
  · intro p hp
    rcases (mem_cbiEraseToks ts _ _).mp hp with ⟨p0, _, hc, rfl⟩
    dsimp only
    intro hnil
    exact hc (by rw [hnil]; rfl)
  · intro p hp
    rcases (mem_cbiEraseToks ts _ _).mp hp with ⟨p0, hp0, _, rfl⟩
    exact List.Nodup.sublist (kmEraseToks_keys_sublist ts _)
      (hwf.cbiInnerKeysNodup p0 hp0)
  · intro p hp q hq
    rcases (mem_cbiEraseToks ts _ _).mp hp with ⟨p0, _, _, rfl⟩
    rcases (mem_kmEraseToks ts _ _).mp hq with ⟨q0, _, hc, rfl⟩
    dsimp only
    intro hnil
    exact hc (by rw [hnil]; rfl)
  · intro p hp q hq
    rcases (mem_cbiEraseToks ts _ _).mp hp with ⟨p0, hp0, _, rfl⟩
    rcases (mem_kmEraseToks ts _ _).mp hq with ⟨q0, hq0, _, rfl⟩
    exact (hwf.cbiInnerNodup p0 hp0 q0 hq0).filter _
  · intro p hp q hq t ht
    rcases (mem_cbiEraseToks ts _ _).mp hp with ⟨p0, hp0, _, rfl⟩
    rcases (mem_kmEraseToks ts _ _).mp hq with ⟨q0, hq0, _, rfl⟩
    exact hwf.cbiEnv p0 hp0 q0 hq0 t (List.mem_filter.mp ht).1
  · intro p hp q hq t ht
    rcases (mem_cbiEraseToks ts _ _).mp hp with ⟨p0, hp0, _, rfl⟩
    rcases (mem_kmEraseToks ts _ _).mp hq with ⟨q0, hq0, _, rfl⟩
    rcases List.mem_filter.mp ht with ⟨ht0, hts⟩
    exact regCallbacks_eraseToks_mem ts s hwf.regKeysNodup _ _ _
      (hwf.cbiReg p0 hp0 q0 hq0 t ht0) (by simpa using hts)
  · rw [show (eraseToks ts s).scopeSubscriptionTokens
      = sciEraseToks ts s.scopeSubscriptionTokens from rfl, sciEraseToks_keys]
    exact hwf.sciKeysNodup
  · intro p hp
    rcases (mem_sciEraseToks ts _ _).mp hp with ⟨p0, hp0, rfl⟩
    exact (hwf.sciNodup p0 hp0).filter _
  · intro p hp t ht
    rcases (mem_sciEraseToks ts _ _).mp hp with ⟨p0, hp0, rfl⟩
    exact hwf.sciEnv p0 hp0 t (List.mem_filter.mp ht).1
  · intro p hp t ht
    rcases (mem_sciEraseToks ts _ _).mp hp with ⟨p0, hp0, rfl⟩
    rcases List.mem_filter.mp ht with ⟨ht0, hts⟩
    exact reg_exists_eraseToks ts s t (hwf.sciReg p0 hp0 t ht0)
      (by simpa using hts)

/-! ### Composing single-token erases -/

theorem filter_not_mem_cons_nat (l : List Nat) (t : Nat) (ts : List Nat) :
    ((l.filter fun x => x ∉ [t]).filter fun x => x ∉ ts)
      = l.filter fun x => x ∉ t :: ts := by
  rw [List.filter_filter]
  refine List.filter_congr fun x _ => ?_
  by_cases h1 : x = t <;> by_cases h2 : x ∈ ts <;> simp [h1, h2]

theorem filter_key_not_mem_cons (l : List (Nat × Fn)) (t : Nat)
    (ts : List Nat) :
    ((l.filter fun q => q.1 ∉ [t]).filter fun q => q.1 ∉ ts)
      = l.filter fun q => q.1 ∉ t :: ts := by
  rw [List.filter_filter]
  refine List.filter_congr fun q _ => ?_
  by_cases h1 : q.1 = t <;> by_cases h2 : q.1 ∈ ts <;> simp [h1, h2]

theorem regEraseToks_comp (t : Nat) (ts : List Nat)
    (m : List (List Char × Subscription)) :
    regEraseToks ts (regEraseToks [t] m) = regEraseToks (t :: ts) m := by
  induction m with
  | nil => rfl
  | cons p rest ih =>
    by_cases h1 : ((p.2.callbacks.filter fun q => q.1 ∉ [t]).isEmpty : Prop)
    · have he1 : (p.2.callbacks.filter fun q => q.1 ∉ [t]) = [] :=
        List.isEmpty_iff.mp h1
      have h3 : ((p.2.callbacks.filter fun q => q.1 ∉ t :: ts).isEmpty
          : Prop) := by
        rw [← filter_key_not_mem_cons, he1]
        rfl
      rw [regEraseToks_cons [t], if_pos h1, ih, regEraseToks_cons (t :: ts),
        if_pos h3]
    · rw [regEraseToks_cons [t], if_neg h1, regEraseToks_cons ts]
      dsimp only
      rw [filter_key_not_mem_cons]
      by_cases h2 : ((p.2.callbacks.filter fun q => q.1 ∉ t :: ts).isEmpty
          : Prop)
      · rw [if_pos h2, ih, regEraseToks_cons (t :: ts), if_pos h2]
      · rw [if_neg h2, ih, regEraseToks_cons (t :: ts), if_neg h2]

theorem kmEraseToks_comp (t : Nat) (ts : List Nat)
    (km : List (List Char × List Nat)) :
    kmEraseToks ts (kmEraseToks [t] km) = kmEraseToks (t :: ts) km := by
  induction km with
  | nil => rfl
  | cons q rest ih =>
    by_cases h1 : ((q.2.filter fun x => x ∉ [t]).isEmpty : Prop)
    · have he1 : (q.2.filter fun x => x ∉ [t]) = [] := List.isEmpty_iff.mp h1
      have h3 : ((q.2.filter fun x => x ∉ t :: ts).isEmpty : Prop) := by
        rw [← filter_not_mem_cons_nat, he1]
        rfl
      rw [kmEraseToks_cons [t], if_pos h1, ih, kmEraseToks_cons (t :: ts),
        if_pos h3]
    · rw [kmEraseToks_cons [t], if_neg h1, kmEraseToks_cons ts]
      dsimp only
      rw [filter_not_mem_cons_nat]
      by_cases h2 : ((q.2.filter fun x => x ∉ t :: ts).isEmpty : Prop)
      · rw [if_pos h2, ih, kmEraseToks_cons (t :: ts), if_pos h2]
      · rw [if_neg h2, ih, kmEraseToks_cons (t :: ts), if_neg h2]

theorem cbiEraseToks_comp (t : Nat) (ts : List Nat)
    (m : List (Fn × List (List Char × List Nat))) :
    cbiEraseToks ts (cbiEraseToks [t] m) = cbiEraseToks (t :: ts) m := by
  induction m with
  | nil => rfl
  | cons p rest ih =>
    by_cases h1 : ((kmEraseToks [t] p.2).isEmpty : Prop)
    · have he1 : kmEraseToks [t] p.2 = [] := List.isEmpty_iff.mp h1
      have h3 : ((kmEraseToks (t :: ts) p.2).isEmpty : Prop) := by
        rw [← kmEraseToks_comp, he1]
        rfl
      rw [cbiEraseToks_cons [t], ← kmEraseToks_def, if_pos h1, ih,
        cbiEraseToks_cons (t :: ts), ← kmEraseToks_def, if_pos h3]
    · rw [cbiEraseToks_cons [t], ← kmEraseToks_def, if_neg h1,
        cbiEraseToks_cons ts, ← kmEraseToks_def]
      dsimp only
      rw [kmEraseToks_comp]
      by_cases h2 : ((kmEraseToks (t :: ts) p.2).isEmpty : Prop)
      · rw [if_pos h2, ih, cbiEraseToks_cons (t :: ts), ← kmEraseToks_def,
          if_pos h2]
      · rw [if_neg h2, ih, cbiEraseToks_cons (t :: ts), ← kmEraseToks_def,
          if_neg h2]

theorem sciEraseToks_comp (t : Nat) (ts : List Nat)
    (m : List (Option Nat × List Nat)) :
    sciEraseToks ts (sciEraseToks [t] m) = sciEraseToks (t :: ts) m := by
  induction m with
  | nil => rfl
  | cons p rest ih =>
    rw [sciEraseToks_cons, sciEraseToks_cons, sciEraseToks_cons]
    dsimp only
    rw [filter_not_mem_cons_nat, ih]

theorem eraseToks_comp (t : Nat) (ts : List Nat) (s : PubSubState) :
    eraseToks ts (eraseToks [t] s) = eraseToks (t :: ts) s := by
  unfold eraseToks
  dsimp only
  rw [regEraseToks_comp, cbiEraseToks_comp, sciEraseToks_comp,
    filter_not_mem_cons_nat]

/-! ### Running a list of collected tokens -/

theorem runTokens_cons (s : PubSubState) (t : Nat) (ts : List Nat) :
    runTokens s (t :: ts)
      = ((runTokens (invokeToken s t).1 ts).1,
          (runTokens (invokeToken s t).1 ts).2 || (invokeToken s t).2) := by
  have aux : ∀ (l : List Nat) (s0 : PubSubState) (b : Bool),
      l.foldl (fun acc t =>
          let r := invokeToken acc.1 t
          (r.1, r.2 || acc.2)) (s0, b)
        = ((runTokens s0 l).1, (runTokens s0 l).2 || b) := by
    intro l
    induction l with
    | nil =>
      intro s0 b
      simp [runTokens]
    | cons x xs ih =>
      intro s0 b
      simp only [runTokens, List.foldl_cons]
      rw [ih, ih]
      simp [Bool.or_assoc, Bool.or_comm]
  simp only [runTokens, List.foldl_cons]
  rw [aux]
  simp
  exact ⟨rfl, rfl⟩

/-- Invoking a duplicate-free list of live tokens removes exactly those
tokens from the registry and every index, and reports `true` iff the list is
nonempty. -/
theorem runTokens_eraseToks (ts : List Nat) :
    ∀ (s : PubSubState), WF s → ts.Nodup →
    (∀ t ∈ ts, ∃ k g, (t, g) ∈ regCallbacks s k) →
    runTokens s ts = (eraseToks ts s, !ts.isEmpty) := by
  induction ts with
  | nil =>
    intro s hwf _ _
    have h1 : regEraseToks [] s.subscriptions = s.subscriptions :=
      regEraseToks_id [] _ (fun p _ q _ => by simp) hwf.regNE
    have h2 : (s.subscriptionTokens.filter fun x => x ∉ ([] : List Nat))
        = s.subscriptionTokens :=
      List.filter_eq_self.mpr fun x _ => by simp
    have h3 : cbiEraseToks [] s.callbackSubscriptionTokens
        = s.callbackSubscriptionTokens :=
      cbiEraseToks_id [] _ (fun p _ q _ x _ => by simp) hwf.cbiNE
        hwf.cbiInnerNE
    have h4 : sciEraseToks [] s.scopeSubscriptionTokens
        = s.scopeSubscriptionTokens :=
      sciEraseToks_id [] _ (fun p _ x _ => by simp)
    show (s, false) = (eraseToks [] s, !([] : List Nat).isEmpty)
    unfold eraseToks
    rw [h1, h2, h3, h4]
    rfl
  | cons t ts ih =>
    intro s hwf hnd hlive
    rcases List.nodup_cons.mp hnd with ⟨hts, hndts⟩
    obtain ⟨k, g, hreg⟩ := hlive t (List.mem_cons_self t ts)
    have hstep := invokeToken_erase s hwf t k g hreg
    have hwf1 : WF (eraseToks [t] s) := WF_eraseToks [t] s hwf
    have hlive1 : ∀ x ∈ ts, ∃ k g, (x, g) ∈ regCallbacks (eraseToks [t] s) k := by
      intro x hx
      obtain ⟨k1, g1, hr⟩ := hlive x (List.mem_cons_of_mem _ hx)
      refine ⟨k1, g1, regCallbacks_eraseToks_mem [t] s hwf.regKeysNodup k1 x g1
        hr ?_⟩
      simp only [List.mem_singleton]
      intro he
      exact hts (he ▸ hx)
    have ih1 := ih (eraseToks [t] s) hwf1 hndts hlive1
    rw [runTokens_cons, hstep]
    dsimp only
    rw [ih1]
    dsimp only
    rw [eraseToks_comp]
    simp

/-! ### Claim C9 -/

theorem filterMap_congr_members {A B : Type} (l : List A) (f g : A → Option B)
    (h : ∀ a ∈ l, f a = g a) : l.filterMap f = l.filterMap g := by
  induction l with
  | nil => rfl
  | cons a rest ih =>
    rw [List.filterMap_cons, List.filterMap_cons, h a (List.mem_cons_self a rest),
      ih fun a ha => h a (List.mem_cons_of_mem _ ha)]

theorem regCallbacks_of_mem (s : PubSubState)
    (hnd : (s.subscriptions.map Prod.fst).Nodup)
    (p : List Char × Subscription) (hp : p ∈ s.subscriptions)
    (q : Nat × Fn) (hq : q ∈ p.2.callbacks) : q ∈ regCallbacks s p.1 := by
  unfold regCallbacks
  rw [alistGet_of_mem_of_nodup _ _ hp hnd]
  simpa using hq

theorem cbi_flatMap_nodup (s : PubSubState) (hwf : WF s) (f : Fn)
    (km : List (List Char × List Nat))
    (hkmMem : (f, km) ∈ s.callbackSubscriptionTokens) :
    (km.flatMap (·.2)).Nodup := by
  have aux : ∀ (l : List (List Char × List Nat)),
      (l.map Prod.fst).Nodup →
      (∀ q ∈ l, q.2.Nodup) →
      (∀ q ∈ l, ∀ x ∈ q.2, envKeyCb s x = some (q.1, f)) →
      (l.flatMap (·.2)).Nodup := by
    intro l
    induction l with
    | nil =>
      intro _ _ _
      simp
    | cons q rest ih =>
      intro hknd hsets henv
      rw [List.flatMap_cons]
      rcases List.nodup_cons.mp hknd with ⟨hqNotin, hkndRest⟩
      refine List.Nodup.append (hsets q (List.mem_cons_self q rest))
        (ih hkndRest (fun q' hq' => hsets q' (List.mem_cons_of_mem _ hq'))
          (fun q' hq' => henv q' (List.mem_cons_of_mem _ hq'))) ?_
      intro x hx hx'
      rcases List.mem_flatMap.mp hx' with ⟨q', hq', hxq'⟩
      have h1 := henv q (List.mem_cons_self q rest) x hx
      have h2 := henv q' (List.mem_cons_of_mem _ hq') x hxq'
      rw [h1] at h2
      have hpair : (q.1, f) = (q'.1, f) := Option.some_inj.mp h2
      have hqq0 := congrArg Prod.fst hpair
      have hqq : q.1 = q'.1 := hqq0
      exact hqNotin (by rw [hqq]; exact List.mem_map.mpr ⟨q', hq', rfl⟩)
  exact aux km (hwf.cbiInnerKeysNodup _ hkmMem) (hwf.cbiInnerNodup _ hkmMem)
    (fun q hq x hx => hwf.cbiEnv _ hkmMem q hq x hx)

/-- C9: `unsubscribe(f)` with a callback and no second argument removes every
token issued for `f`: the callback index drops `f`'s entry and keeps every
other callback's entry unchanged, the registry keeps exactly the other
callbacks' token bindings (on the same keys included, pruning only entries
that held nothing but `f`), and the token set and scope sets lose exactly
`f`'s tokens.  The call reports `true`. -/
theorem unsubscribe_callback_removes_all (env : Env) (s : PubSubState)
    (f : Fn) (arg2 : JSVal) (hwf : WF s)
    (hnt : subscriptionTokensHas s f = false)
    (km : List (List Char × List Nat))
    (hf : alistGet s.callbackSubscriptionTokens f = some km) :
    (unsubscribe env (.fn f) arg2 s).2 = true
    ∧ alistGet (unsubscribe env (.fn f) arg2 s).1.callbackSubscriptionTokens f
        = none
    ∧ (∀ g, g ≠ f →
        alistGet
            (unsubscribe env (.fn f) arg2 s).1.callbackSubscriptionTokens g
          = alistGet s.callbackSubscriptionTokens g)
    ∧ (unsubscribe env (.fn f) arg2 s).1.subscriptions
        = s.subscriptions.filterMap (fun p =>
            if (p.2.callbacks.filter fun q => q.2 ≠ f).isEmpty then none
            else some (p.1, ⟨p.2.subscriptionPattern,
              p.2.callbacks.filter fun q => q.2 ≠ f⟩))
    ∧ (unsubscribe env (.fn f) arg2 s).1.subscriptionTokens
        = s.subscriptionTokens.filter (fun x => x ∉ cbiAllTokens s f)
    ∧ (unsubscribe env (.fn f) arg2 s).1.scopeSubscriptionTokens
        = s.scopeSubscriptionTokens.map (fun p =>
            (p.1, p.2.filter fun x => x ∉ cbiAllTokens s f)) := by
  have hkmMem : (f, km) ∈ s.callbackSubscriptionTokens :=
    mem_of_alistGet _ _ _ hf
  have hAll : cbiAllTokens s f = km.flatMap (·.2) := by
    rw [cbiAllTokens_eq, hf]
    rfl
  have hlive : ∀ x ∈ cbiAllTokens s f, ∃ k g, (x, g) ∈ regCallbacks s k := by
    intro x hx
    rw [hAll] at hx
    rcases List.mem_flatMap.mp hx with ⟨q, hq, hxq⟩
    exact ⟨q.1, f, hwf.cbiReg _ hkmMem q hq x hxq⟩
  have hnd : (cbiAllTokens s f).Nodup := by
    rw [hAll]
    exact cbi_flatMap_nodup s hwf f km hkmMem
  have hne : cbiAllTokens s f ≠ [] := by
    rw [hAll]
    have hkmne := hwf.cbiNE _ hkmMem
    cases km with
    | nil => exact absurd rfl hkmne
    | cons q rest =>
      have hq2 := hwf.cbiInnerNE _ hkmMem q (List.mem_cons_self q rest)
      intro hnil
      rw [List.flatMap_cons] at hnil
      exact hq2 (List.append_eq_nil.mp hnil).1
  have hrun : unsubscribe env (.fn f) arg2 s
      = runTokens s (cbiAllTokens s f) := by
    unfold unsubscribe
    dsimp only
    rw [hnt]
    simp only [Bool.false_eq_true, if_false]
    rw [hf]
    unfold cbiAllTokens
    rw [hf]
    rfl
  have hmain := runTokens_eraseToks (cbiAllTokens s f) s hwf hnd hlive
  rw [hrun, hmain]
  have hmemToks : ∀ (q' : List Char × List Nat), q' ∈ km →
      ∀ x ∈ q'.2, x ∈ cbiAllTokens s f := by
    intro q' hq' x hx
    rw [hAll]
    exact List.mem_flatMap.mpr ⟨q', hq', hx⟩
  refine ⟨?_, ?_, ?_, ?_, ?_, ?_⟩
  · dsimp only
    simpa using hne
  · rw [show (eraseToks (cbiAllTokens s f) s).callbackSubscriptionTokens
      = cbiEraseToks (cbiAllTokens s f) s.callbackSubscriptionTokens from rfl]
    have hkmE : kmEraseToks (cbiAllTokens s f) km = [] := by
      refine List.filterMap_eq_nil_iff.mpr fun q hq => ?_
      have hfil : (q.2.filter fun x => x ∉ cbiAllTokens s f) = [] := by
        refine List.filter_eq_nil_iff.mpr fun x hx => ?_
        simpa using hmemToks q hq x hx
      dsimp only
      rw [hfil]
      rfl
    rw [alistGet_cbiEraseToks _ _ _ km hwf.cbiKeysNodup hf]
    rw [if_pos (by rw [hkmE]; rfl)]
  · intro g hg
    rw [show (eraseToks (cbiAllTokens s f) s).callbackSubscriptionTokens
      = cbiEraseToks (cbiAllTokens s f) s.callbackSubscriptionTokens from rfl]
    cases hgget : alistGet s.callbackSubscriptionTokens g with
    | none => exact alistGet_cbiEraseToks_none _ _ _ hgget
    | some kmg =>
      have hgmem : (g, kmg) ∈ s.callbackSubscriptionTokens :=
        mem_of_alistGet _ _ _ hgget
      have hkmid : kmEraseToks (cbiAllTokens s f) kmg = kmg := by
        refine kmEraseToks_id _ _ ?_ (hwf.cbiInnerNE _ hgmem)
        intro q hq x hx hxtoks
        rw [hAll] at hxtoks
        rcases List.mem_flatMap.mp hxtoks with ⟨q', hq', hxq'⟩
        have h1 := hwf.cbiEnv _ hkmMem q' hq' x hxq'
        have h2 := hwf.cbiEnv _ hgmem q hq x hx
        rw [h1] at h2
        have hpair : (q'.1, f) = (q.1, g) := Option.some_inj.mp h2
        exact hg (congrArg Prod.snd hpair).symm
      rw [alistGet_cbiEraseToks _ _ _ kmg hwf.cbiKeysNodup hgget]
      rw [if_neg (by rw [hkmid]; simpa using hwf.cbiNE _ hgmem), hkmid]
  · rw [show (eraseToks (cbiAllTokens s f) s).subscriptions
      = regEraseToks (cbiAllTokens s f) s.subscriptions from rfl]
    unfold regEraseToks
    refine filterMap_congr_members _ _ _ fun p hp => ?_
    have hiff : ∀ q ∈ p.2.callbacks,
        (q.1 ∈ cbiAllTokens s f ↔ q.2 = f) := by
      intro q hq
      constructor
      · intro hmem
        rw [hAll] at hmem
        rcases List.mem_flatMap.mp hmem with ⟨q', hq', hxq'⟩
        have h1 := hwf.cbiEnv _ hkmMem q' hq' q.1 hxq'
        have h2 := hwf.regEnv p hp q hq
        rw [h1] at h2
        exact (congrArg Prod.snd (Option.some_inj.mp h2)).symm
      · intro hc
        have h1 := hwf.regCbi p hp q hq
        rw [hc] at h1
        unfold cbiTokens at h1
        rw [hf] at h1
        simp only [Option.some_bind] at h1
        cases hkk : alistGet km p.1 with
        | none =>
          rw [hkk] at h1
          simp at h1
        | some ts1 =>
          rw [hkk] at h1
          have h1' : q.1 ∈ ts1 := by simpa using h1
          exact hmemToks (p.1, ts1) (mem_of_alistGet _ _ _ hkk) q.1 h1'
    have hfeq : (p.2.callbacks.filter fun q => q.1 ∉ cbiAllTokens s f)
        = p.2.callbacks.filter fun q => q.2 ≠ f := by
      refine List.filter_congr fun q hq => ?_
      by_cases hc : q.2 = f
      · simp [hc, (hiff q hq).mpr hc]
      · have hq1 : q.1 ∉ cbiAllTokens s f := fun hmem => hc ((hiff q hq).mp hmem)
        simp [hc, hq1]
    dsimp only
    rw [hfeq]
  · rfl
  · rfl

/-- Three live subscriptions: callback `1` on `a` and on `b`, callback `2`
on `a`. -/
def frameState : PubSubState :=
  subStr defaultEnv none "b" 1
    (subStr defaultEnv none "a" 2 (subStr defaultEnv none "a" 1 emptyState))

/-- C9 witness: unsubscribing callback `1` everywhere drops its index entry
and leaves callback `2`'s subscription on the shared topic `a` untouched. -/
theorem unsubscribe_callback_removes_all_witness :
    (unsubscribe defaultEnv (.fn (.ext 1)) .undef frameState).2 = true
    ∧ alistGet (unsubscribe defaultEnv (.fn (.ext 1))
        .undef frameState).1.callbackSubscriptionTokens (.ext 1) = none
    ∧ alistGet (unsubscribe defaultEnv (.fn (.ext 1))
        .undef frameState).1.callbackSubscriptionTokens (.ext 2)
      = alistGet frameState.callbackSubscriptionTokens (.ext 2) := by
  have h := unsubscribe_callback_removes_all defaultEnv frameState (.ext 1)
    .undef (by constructor <;> decide) (by decide)
    [("a".toList, [0]), ("b".toList, [2])] (by decide)
  exact ⟨h.1, h.2.1, h.2.2.1 (.ext 2) (by decide)⟩

/-! ### Claim C10 -/

/-- C10: the empty string is falsy, so `unsubscribeAll` treats `""` exactly
like an absent topic specifier: on any scope the two calls are the same
operation; on the root API it removes every subscription system-wide (the
registry, token set and callback index all end empty); and on an isolated
scope that has an entry in the scope index it unsubscribes exactly that
scope's tokens — never only the subscriptions under the empty-string key. -/
theorem unsubscribeAll_empty_string (env : Env) (scope : Option Nat)
    (s : PubSubState) (hwf : WF s) :
    (unsubscribeAll env scope (.str []) s
      = unsubscribeAll env scope .undef s)
    ∧ (unsubscribeAll env none (.str []) s
        = some (eraseToks s.subscriptionTokens s,
            !s.subscriptionTokens.isEmpty)
      ∧ (eraseToks s.subscriptionTokens s).subscriptions = []
      ∧ (eraseToks s.subscriptionTokens s).subscriptionTokens = []
      ∧ (eraseToks s.subscriptionTokens s).callbackSubscriptionTokens = [])
    ∧ (∀ (sc : Nat) (ts : List Nat),
        alistGet s.scopeSubscriptionTokens (some sc) = some ts →
        unsubscribeAll env (some sc) (.str []) s
          = some (eraseToks ts s, !ts.isEmpty)) := by
  have hlive : ∀ t ∈ s.subscriptionTokens,
      ∃ k g, (t, g) ∈ regCallbacks s k := by
    intro t ht
    obtain ⟨p, hp, q, hq, hqt⟩ := hwf.toksReg t ht
    refine ⟨p.1, q.2, ?_⟩
    have h3 := regCallbacks_of_mem s hwf.regKeysNodup p hp q hq
    rw [← hqt]
    exact h3
  refine ⟨rfl, ⟨?_, ?_, ?_, ?_⟩, ?_⟩
  · show some (runTokens s s.subscriptionTokens) = _
    rw [runTokens_eraseToks s.subscriptionTokens s hwf hwf.toksNodup hlive]
  · rw [show (eraseToks s.subscriptionTokens s).subscriptions
      = regEraseToks s.subscriptionTokens s.subscriptions from rfl]
    refine List.filterMap_eq_nil_iff.mpr fun p hp => ?_
    have hfil : (p.2.callbacks.filter fun q => q.1 ∉ s.subscriptionTokens)
        = [] := by
      refine List.filter_eq_nil_iff.mpr fun q hq => ?_
      simpa using hwf.regToks p hp q hq
    dsimp only
    rw [hfil]
    rfl
  · rw [show (eraseToks s.subscriptionTokens s).subscriptionTokens
      = s.subscriptionTokens.filter (fun x => x ∉ s.subscriptionTokens)
      from rfl]
    refine List.filter_eq_nil_iff.mpr fun x hx => ?_
    simpa using hx
  · rw [show (eraseToks s.subscriptionTokens s).callbackSubscriptionTokens
      = cbiEraseToks s.subscriptionTokens s.callbackSubscriptionTokens
      from rfl]
    refine List.filterMap_eq_nil_iff.mpr fun p hp => ?_
    have hkm : kmEraseToks s.subscriptionTokens p.2 = [] := by
      refine List.filterMap_eq_nil_iff.mpr fun q hq => ?_
      have hfil : (q.2.filter fun x => x ∉ s.subscriptionTokens) = [] := by
        refine List.filter_eq_nil_iff.mpr fun x hx => ?_
        have h1 := hwf.cbiReg p hp q hq x hx
        have h2 : x ∈ s.subscriptionTokens := by
          unfold regCallbacks at h1
          cases hg : alistGet s.subscriptions q.1 with
          | none =>
            rw [hg] at h1
            simp at h1
          | some sub =>
            rw [hg] at h1
            have h1' : (x, p.1) ∈ sub.callbacks := by simpa using h1
            exact hwf.regToks (q.1, sub) (mem_of_alistGet _ _ _ hg)
              (x, p.1) h1'
        simpa using h2
      dsimp only
      rw [hfil]
      rfl
    dsimp only
    rw [← kmEraseToks_def, hkm]
    rfl
  · intro sc ts hsc
    have hmem := mem_of_alistGet _ _ _ hsc
    have hndts := hwf.sciNodup _ hmem
    have hlivets : ∀ t ∈ ts, ∃ k g, (t, g) ∈ regCallbacks s k := by
      intro t ht
      obtain ⟨p, hp, q, hq, hqt⟩ := hwf.sciReg _ hmem t ht
      refine ⟨p.1, q.2, ?_⟩
      have h3 := regCallbacks_of_mem s hwf.regKeysNodup p hp q hq
      rw [← hqt]
      exact h3
    have hred : unsubscribeAll env (some sc) (.str []) s
        = match alistGet s.scopeSubscriptionTokens (some sc) with
          | some ts0 => some (runTokens s ts0)
          | none => none := rfl
    rw [hred, hsc]
    dsimp only
    rw [runTokens_eraseToks ts s hwf hndts hlivets]

/-- Two isolated-scope subscriptions (tokens 1 and 2 under scope 5) and one
root subscription (token 0). -/
def emptyStrState : PubSubState :=
  subStr defaultEnv (some 5) "b" 2
    (subStr defaultEnv (some 5) "a" 1 (subStr defaultEnv none "a" 3 emptyState))

/-- C10 witness: on scope 5, `unsubscribeAll("")` equals `unsubscribeAll()`
and unsubscribes exactly tokens 1 and 2. -/
theorem unsubscribeAll_empty_string_witness :
    (unsubscribeAll defaultEnv (some 5) (.str []) emptyStrState
      = unsubscribeAll defaultEnv (some 5) .undef emptyStrState)
    ∧ unsubscribeAll defaultEnv (some 5) (.str []) emptyStrState
        = some (eraseToks [1, 2] emptyStrState, true) := by
  have h := unsubscribeAll_empty_string defaultEnv (some 5) emptyStrState
    (by constructor <;> decide)
  refine ⟨h.1, ?_⟩
  rw [h.2.2 5 [1, 2] (by decide)]
  rfl

end PubSub
